import Mathlib

/-!
Verification of the pi-mono conversational agent runtime core.

This file shallowly embeds, in Lean 4, the parts of the pi-mono source that the
frozen claims are about:

* the cross-model message transform `transformMessages`
  (packages/ai providers transform, `src/unnamed/part_006`);
* the compaction cut-point finder and token estimator
  (`packages/coding-agent/src/core/compaction/compaction.ts`);
* the tool-call execution / steering-skip loop of the agent loop
  (`packages/agent/src/agent-loop.ts`);
* the `EventStream` producer state machine
  (event-stream utility embedded alongside compaction.ts in the sources);
* the proxy event codec `processProxyEvent` (`src/unnamed/part_001`).

Effectful TypeScript (async calls, promises, `Date.now()`) is embedded by
explicit state passing: timestamps become `Nat` parameters, tool execution and
steering sources become oracles indexed by call position, and the event stream
becomes a pure state machine with an explicit delivery log.  Fallible code
returns `Option` / `Except`.  JavaScript numbers that are used as counts and
lengths are embedded as `Nat`; index sentinels (`-1`) as `Int`.
-/

namespace Pi

/-! ### JSON values

Tool-call `arguments` are arbitrary JSON objects in the source; we embed JSON
values as an inductive.  Numbers are embedded as integers (the claims never
depend on float behaviour). -/

inductive Json where
  | null : Json
  | bool (b : Bool) : Json
  | num (n : Int) : Json
  | str (s : String) : Json
  | arr (xs : List Json) : Json
  | obj (fields : List (String × Json)) : Json

mutual

def Json.decEq : (a b : Json) → Decidable (a = b)
  | .null, .null => .isTrue rfl
  | .bool x, .bool y =>
      if h : x = y then .isTrue (congrArg Json.bool h)
      else .isFalse (fun c => h (Json.bool.inj c))
  | .num x, .num y =>
      if h : x = y then .isTrue (congrArg Json.num h)
      else .isFalse (fun c => h (Json.num.inj c))
  | .str x, .str y =>
      if h : x = y then .isTrue (congrArg Json.str h)
      else .isFalse (fun c => h (Json.str.inj c))
  | .arr xs, .arr ys =>
      match Json.decEqList xs ys with
      | .isTrue h => .isTrue (congrArg Json.arr h)
      | .isFalse h => .isFalse (fun c => h (Json.arr.inj c))
  | .obj xs, .obj ys =>
      match Json.decEqObj xs ys with
      | .isTrue h => .isTrue (congrArg Json.obj h)
      | .isFalse h => .isFalse (fun c => h (Json.obj.inj c))
  | .null, .bool _ | .null, .num _ | .null, .str _ | .null, .arr _ | .null, .obj _ =>
      .isFalse (fun h => Json.noConfusion h)
  | .bool _, .null | .bool _, .num _ | .bool _, .str _ | .bool _, .arr _ | .bool _, .obj _ =>
      .isFalse (fun h => Json.noConfusion h)
  | .num _, .null | .num _, .bool _ | .num _, .str _ | .num _, .arr _ | .num _, .obj _ =>
      .isFalse (fun h => Json.noConfusion h)
  | .str _, .null | .str _, .bool _ | .str _, .num _ | .str _, .arr _ | .str _, .obj _ =>
      .isFalse (fun h => Json.noConfusion h)
  | .arr _, .null | .arr _, .bool _ | .arr _, .num _ | .arr _, .str _ | .arr _, .obj _ =>
      .isFalse (fun h => Json.noConfusion h)
  | .obj _, .null | .obj _, .bool _ | .obj _, .num _ | .obj _, .str _ | .obj _, .arr _ =>
      .isFalse (fun h => Json.noConfusion h)

def Json.decEqList : (xs ys : List Json) → Decidable (xs = ys)
  | [], [] => .isTrue rfl
  | [], _ :: _ => .isFalse (fun h => List.noConfusion h)
  | _ :: _, [] => .isFalse (fun h => List.noConfusion h)
  | x :: xs, y :: ys =>
      match Json.decEq x y, Json.decEqList xs ys with
      | .isTrue h1, .isTrue h2 => .isTrue (by rw [h1, h2])
      | .isFalse h1, _ => .isFalse (fun c => h1 (List.head_eq_of_cons_eq c))
      | _, .isFalse h2 => .isFalse (fun c => h2 (List.tail_eq_of_cons_eq c))

def Json.decEqObj : (xs ys : List (String × Json)) → Decidable (xs = ys)
  | [], [] => .isTrue rfl
  | [], _ :: _ => .isFalse (fun h => List.noConfusion h)
  | _ :: _, [] => .isFalse (fun h => List.noConfusion h)
  | (k, v) :: xs, (k2, v2) :: ys =>
      if hk : k = k2 then
        match Json.decEq v v2, Json.decEqObj xs ys with
        | .isTrue h1, .isTrue h2 => .isTrue (by rw [hk, h1, h2])
        | .isFalse h1, _ =>
            .isFalse (fun c => h1 (congrArg Prod.snd (List.head_eq_of_cons_eq c)))
        | _, .isFalse h2 => .isFalse (fun c => h2 (List.tail_eq_of_cons_eq c))
      else
        .isFalse (fun c => hk (congrArg Prod.fst (List.head_eq_of_cons_eq c)))

end

instance : DecidableEq Json := Json.decEq

/-- One escaped character of `JSON.stringify` output for string payloads. -/
def jsonEscapeChar (c : Char) : String :=
  if c = '"' then "\\\""
  else if c = '\\' then "\\\\"
  else if c = '\n' then "\\n"
  else if c = '\t' then "\\t"
  else if c = '\r' then "\\r"
  else String.singleton c

def jsonEscape (s : String) : String :=
  String.join (s.toList.map jsonEscapeChar)

mutual

/-- Embedding of `JSON.stringify` on the `Json` inductive (used by
`estimateTokens`, which measures the length of the serialized arguments). -/
def Json.serialize : Json → String
  | .null => "null"
  | .bool true => "true"
  | .bool false => "false"
  | .num n => toString n
  | .str s => "\"" ++ jsonEscape s ++ "\""
  | .arr xs => "[" ++ String.intercalate "," (Json.serializeList xs) ++ "]"
  | .obj fields => "\x7b" ++ String.intercalate "," (Json.serializeObj fields) ++ "\x7d" 

def Json.serializeList : List Json → List String
  | [] => []
  | x :: xs => Json.serialize x :: Json.serializeList xs

def Json.serializeObj : List (String × Json) → List String
  | [] => []
  | (k, v) :: xs => ("\"" ++ jsonEscape k ++ "\":" ++ Json.serialize v) :: Json.serializeObj xs

end

instance : Repr Json := ⟨fun j _ => Std.Format.text (Json.serialize j)⟩

/-! ### The LM-facing message data model (packages/ai types) -/

structure Cost where
  input : Nat
  output : Nat
  cacheRead : Nat
  cacheWrite : Nat
  total : Nat
deriving DecidableEq, Repr

structure Usage where
  input : Nat
  output : Nat
  cacheRead : Nat
  cacheWrite : Nat
  totalTokens : Nat
  cost : Cost
deriving DecidableEq, Repr

def Usage.zero : Usage := ⟨0, 0, 0, 0, 0, ⟨0, 0, 0, 0, 0⟩⟩

inductive StopReason where
  | stop | length | toolUse | aborted | error
deriving DecidableEq, Repr

structure ToolCall where
  id : String
  name : String
  arguments : Json
  thoughtSignature : Option String
deriving DecidableEq, Repr

inductive AssistantBlock where
  | text (text : String) (textSignature : Option String)
  | thinking (thinking : String) (thinkingSignature : Option String)
  | toolCall (tc : ToolCall)
deriving DecidableEq, Repr

inductive UserBlock where
  | text (text : String)
  | image (data : String)
deriving DecidableEq, Repr

/-- `user` / `custom` / `toolResult` content may be a plain string or a block
list in the source (`string | Array<...>`). -/
inductive UserContent where
  | str (s : String)
  | blocks (bs : List UserBlock)
deriving DecidableEq, Repr

/-- Target model identity: `Model<Api>`'s provider / api / id triple, which is
all the transform consults. -/
structure ModelId where
  provider : String
  api : String
  id : String
deriving DecidableEq, Repr

structure UserMessage where
  content : UserContent
  timestamp : Nat
deriving DecidableEq, Repr

structure AssistantMessage where
  content : List AssistantBlock
  stopReason : StopReason
  provider : String
  api : String
  model : String
  usage : Usage
  errorMessage : Option String
  timestamp : Nat
deriving DecidableEq, Repr

/-- `details` is an opaque payload never inspected by the embedded code, so it
is omitted. -/
structure ToolResultMessage where
  toolCallId : String
  toolName : String
  content : UserContent
  isError : Bool
  timestamp : Nat
deriving DecidableEq, Repr

/-- The LM-facing message union (`Message` in packages/ai). -/
inductive Message where
  | user (m : UserMessage)
  | assistant (m : AssistantMessage)
  | toolResult (m : ToolResultMessage)
deriving DecidableEq, Repr

/-! ### Cross-model message transform (`transformMessages`, src/unnamed/part_006)

The JS `Map` of original tool-call ids to normalized ids is embedded as an
association list where the newest binding is consed to the front (so lookup
returns the latest binding, matching `Map.set` overwrite semantics). -/

abbrev IdMap := List (String × String)

/-- `normalizeToolCallId(id, model, source)`. -/
abbrev Normalizer := String → ModelId → AssistantMessage → String

/-- One step of the first pass over an assistant content block
(the `flatMap` body in `transformMessages`), threading the tool-call id map. -/
def transformAssistantBlock (mdl : ModelId) (norm : Option Normalizer)
    (src : AssistantMessage) (isSameModel : Bool) (st : IdMap) :
    AssistantBlock → IdMap × List AssistantBlock
  | .thinking t sig =>
      -- same model + signature present → keep (even if the thinking text is empty)
      if isSameModel && sig.isSome then (st, [.thinking t sig])
      -- skip empty thinking blocks (`!block.thinking || trim === ""`)
      else if t.trim = "" then (st, [])
      else if isSameModel then (st, [.thinking t sig])
      -- cross model → downgrade to a plain text block
      else (st, [.text t none])
  | .text t sig =>
      if isSameModel then (st, [.text t sig])
      -- cross model → strip the signature, keep only the raw text
      else (st, [.text t none])
  | .toolCall tc =>
      -- cross model + thoughtSignature present → delete it
      let tc1 := if !isSameModel && tc.thoughtSignature.isSome
                 then { tc with thoughtSignature := none } else tc
      match norm with
      | some f =>
          if !isSameModel then
            let nid := f tc.id mdl src
            if nid ≠ tc.id then
              ((tc.id, nid) :: st, [.toolCall { tc1 with id := nid }])
            else (st, [.toolCall tc1])
          else (st, [.toolCall tc1])
      | none => (st, [.toolCall tc1])

/-- First pass over one assistant message: compare model identity, transform
every content block in order while threading the id map. -/
def transformAssistant (mdl : ModelId) (norm : Option Normalizer) (st : IdMap)
    (a : AssistantMessage) : IdMap × AssistantMessage :=
  let isSame := a.provider == mdl.provider && a.api == mdl.api && a.model == mdl.id
  let folded := a.content.foldl
    (fun (acc : IdMap × List AssistantBlock) b =>
      let step := transformAssistantBlock mdl norm a isSame acc.1 b
      (step.1, acc.2 ++ step.2))
    (st, [])
  (folded.1, { a with content := folded.2 })

/-- First pass over one message. -/
def transformOne (mdl : ModelId) (norm : Option Normalizer) (st : IdMap) :
    Message → IdMap × Message
  | .user u => (st, .user u)
  | .toolResult r =>
      match st.lookup r.toolCallId with
      | some nid =>
          if nid ≠ r.toolCallId then (st, .toolResult { r with toolCallId := nid })
          else (st, .toolResult r)
      | none => (st, .toolResult r)
  | .assistant a =>
      let step := transformAssistant mdl norm st a
      (step.1, .assistant step.2)

/-- First pass over the whole list (`messages.map` with the shared id map). -/
def firstPass (mdl : ModelId) (norm : Option Normalizer) (st : IdMap) :
    List Message → IdMap × List Message
  | [] => (st, [])
  | m :: ms =>
      let step := transformOne mdl norm st m
      let rest := firstPass mdl norm step.1 ms
      (rest.1, step.2 :: rest.2)

/-- `pendingToolCalls` / `existingToolResultIds` state of the second pass. -/
structure PendingState where
  pendingToolCalls : List ToolCall
  existingToolResultIds : List String
deriving DecidableEq, Repr

/-- The synthetic tool result inserted for an orphaned tool call. -/
def syntheticResult (now : Nat) (tc : ToolCall) : Message :=
  .toolResult { toolCallId := tc.id, toolName := tc.name,
                content := .blocks [.text "No result provided"],
                isError := true, timestamp := now }

/-- Synthetic results for every pending call without an existing result. -/
def flushOrphans (now : Nat) (st : PendingState) : List Message :=
  (st.pendingToolCalls.filter
      (fun tc => !(st.existingToolResultIds.contains tc.id))).map (syntheticResult now)

/-- The tool calls of an assistant message's content. -/
def toolCallsOf (a : AssistantMessage) : List ToolCall :=
  a.content.filterMap (fun b => match b with | .toolCall tc => some tc | _ => none)

/-- Second pass: insert synthetic empty tool results for orphaned tool calls
and drop errored / aborted assistant messages. -/
def secondPass (now : Nat) (st : PendingState) : List Message → List Message
  | [] => []
  | .assistant a :: ms =>
      let flushed := if st.pendingToolCalls.length > 0 then flushOrphans now st else []
      let st1 : PendingState := if st.pendingToolCalls.length > 0 then ⟨[], []⟩ else st
      if a.stopReason = .error ∨ a.stopReason = .aborted then
        -- skip errored/aborted assistant messages entirely
        flushed ++ secondPass now st1 ms
      else
        let calls := toolCallsOf a
        let st2 := if calls.length > 0 then (⟨calls, []⟩ : PendingState) else st1
        flushed ++ .assistant a :: secondPass now st2 ms
  | .toolResult r :: ms =>
      .toolResult r ::
        secondPass now { st with existingToolResultIds := r.toolCallId :: st.existingToolResultIds } ms
  | .user u :: ms =>
      let flushed := if st.pendingToolCalls.length > 0 then flushOrphans now st else []
      let st1 : PendingState := if st.pendingToolCalls.length > 0 then ⟨[], []⟩ else st
      flushed ++ .user u :: secondPass now st1 ms

/-- `transformMessages(messages, model, normalizeToolCallId)`; `now` embeds
`Date.now()` for the synthetic results' timestamps. -/
def transformMessages (messages : List Message) (mdl : ModelId)
    (norm : Option Normalizer) (now : Nat) : List Message :=
  secondPass now ⟨[], []⟩ (firstPass mdl norm [] messages).2

/-! Role / boundary predicates used by the claims. -/

def isUserB : Message → Bool
  | .user _ => true
  | _ => false

def isAssistantB : Message → Bool
  | .assistant _ => true
  | _ => false

/-- Does this message carry tool calls (assistant-with-tool-calls)? -/
def hasToolCallsB : Message → Bool
  | .assistant a => (toolCallsOf a).length > 0
  | _ => false

/-- A boundary as the claims state it: a user message or an
assistant-with-tool-calls. -/
def isClaimBoundary (m : Message) : Bool := isUserB m || hasToolCallsB m

/-- A boundary as the code flushes: any user or assistant message. -/
def isStrongBoundary (m : Message) : Bool := isUserB m || isAssistantB m

/-- Is `m` a tool result for tool-call id `id`? -/
def isToolResultFor (id : String) : Message → Bool
  | .toolResult r => r.toolCallId == id
  | _ => false

/-- Is `m` an assistant message with stopReason `error` or `aborted`? -/
def isErroredAssistant : Message → Bool
  | .assistant a => a.stopReason = .error || a.stopReason = .aborted
  | _ => false

end Pi

namespace Pi

/-! ### Lemmas about the second pass of the transform -/

theorem mem_flushOrphans {now : Nat} {st : PendingState} {m : Message}
    (h : m ∈ flushOrphans now st) :
    ∃ tc ∈ st.pendingToolCalls,
      !(st.existingToolResultIds.contains tc.id) ∧ m = syntheticResult now tc := by
  simp only [flushOrphans, List.mem_map, List.mem_filter] at h
  obtain ⟨tc, ⟨hmem, hne⟩, rfl⟩ := h
  exact ⟨tc, hmem, by simpa using hne, rfl⟩

theorem flushOrphans_not_assistant {now : Nat} {st : PendingState} {m : Message}
    (h : m ∈ flushOrphans now st) : isAssistantB m = false := by
  obtain ⟨tc, _, _, rfl⟩ := mem_flushOrphans h
  rfl

theorem flushOrphans_not_strong {now : Nat} {st : PendingState} {m : Message}
    (h : m ∈ flushOrphans now st) : isStrongBoundary m = false := by
  obtain ⟨tc, _, _, rfl⟩ := mem_flushOrphans h
  rfl

theorem mem_flushOrphans_of {now : Nat} {st : PendingState} {tc : ToolCall}
    (hmem : tc ∈ st.pendingToolCalls)
    (hnot : st.existingToolResultIds.contains tc.id = false) :
    syntheticResult now tc ∈ flushOrphans now st := by
  simp only [flushOrphans, List.mem_map]
  exact ⟨tc, List.mem_filter.mpr ⟨hmem, by simp_all⟩, rfl⟩

theorem secondPass_no_errored :
    ∀ (l : List Message) (now : Nat) (st : PendingState) (m : Message),
      m ∈ secondPass now st l → isErroredAssistant m = false := by
  intro l
  induction l with
  | nil => intro now st m h; simp [secondPass] at h
  | cons x xs ih =>
      intro now st m h
      match x with
      | .user u =>
          simp only [secondPass, List.mem_append, List.mem_cons] at h
          rcases h with h | h | h
          · obtain ⟨tc, _, _, rfl⟩ := mem_flushOrphans (by
              revert h; split <;> intro h
              · exact h
              · simp at h)
            rfl
          · subst h; rfl
          · exact ih now _ m h
      | .toolResult r =>
          simp only [secondPass, List.mem_cons] at h
          rcases h with h | h
          · subst h; rfl
          · exact ih now _ m h
      | .assistant a =>
          simp only [secondPass] at h
          split at h
          · simp only [List.mem_append] at h
            rcases h with h | h
            · obtain ⟨tc, _, _, rfl⟩ := mem_flushOrphans (by
                revert h; split <;> intro h
                · exact h
                · simp at h)
              rfl
            · exact ih now _ m h
          · simp only [List.mem_append, List.mem_cons] at h
            rcases h with h | h | h
            · obtain ⟨tc, _, _, rfl⟩ := mem_flushOrphans (by
                revert h; split <;> intro h
                · exact h
                · simp at h)
              rfl
            · subst h
              simp only [isErroredAssistant]
              rename_i hnot
              rw [not_or] at hnot
              simp [hnot.1, hnot.2]
            · exact ih now _ m h

end Pi

namespace Pi

/-- If an assistant occurs in `xs ++ ys` but `xs` holds no assistants, the
split point lies in `ys`. -/
theorem assistant_split_in_tail :
    ∀ (xs ys l₁ l₂ : List Message) (a : AssistantMessage),
      xs ++ ys = l₁ ++ .assistant a :: l₂ →
      (∀ x ∈ xs, isAssistantB x = false) →
      ∃ l₃, ys = l₃ ++ .assistant a :: l₂ := by
  intro xs
  induction xs with
  | nil => intro ys l₁ l₂ a h _; exact ⟨l₁, by simpa using h⟩
  | cons x xs ih =>
      intro ys l₁ l₂ a h hno
      match l₁ with
      | [] =>
          simp only [List.nil_append, List.cons_append, List.cons.injEq] at h
          have := hno x (List.mem_cons_self x xs)
          rw [h.1] at this
          simp [isAssistantB] at this
      | y :: l₁' =>
          simp only [List.cons_append, List.cons.injEq] at h
          exact ih ys l₁' l₂ a h.2 (fun z hz => hno z (List.mem_cons_of_mem x hz))

theorem takeWhile_append_all {p : Message → Bool} :
    ∀ (xs ys : List Message), (∀ x ∈ xs, p x = true) →
      (xs ++ ys).takeWhile p = xs ++ ys.takeWhile p := by
  intro xs
  induction xs with
  | nil => intro ys _; simp
  | cons x xs ih =>
      intro ys h
      have hx := h x (List.mem_cons_self x xs)
      simp [List.takeWhile_cons, hx, ih ys (fun z hz => h z (List.mem_cons_of_mem x hz))]

/-- Membership in a `takeWhile` survives weakening the predicate pointwise. -/
theorem mem_takeWhile_mono {p q : Message → Bool}
    (hpq : ∀ m, p m = true → q m = true) :
    ∀ (l : List Message) (r : Message), r ∈ l.takeWhile p → r ∈ l.takeWhile q := by
  intro l
  induction l with
  | nil => intro r h; simp at h
  | cons x xs ih =>
      intro r h
      by_cases hx : p x = true
      · rw [List.takeWhile_cons_of_pos hx] at h
        rw [List.takeWhile_cons_of_pos (hpq x hx)]
        rcases List.mem_cons.mp h with h | h
        · exact List.mem_cons.mpr (Or.inl h)
        · exact List.mem_cons.mpr (Or.inr (ih r h))
      · rw [List.takeWhile_cons_of_neg hx] at h
        simp at h

/-- Key invariant of the second pass: a call pending in the state is either
already recorded as existing, or a matching tool result is emitted before the
first user/assistant boundary of the emission (provided such a boundary is
reached at all). -/
theorem secondPass_pending_resolved :
    ∀ (ms : List Message) (now : Nat) (pending : List ToolCall) (existing : List String)
      (tc : ToolCall), tc ∈ pending →
      (∃ b ∈ secondPass now ⟨pending, existing⟩ ms, isStrongBoundary b = true) →
      existing.contains tc.id = true ∨
        ∃ r ∈ (secondPass now ⟨pending, existing⟩ ms).takeWhile (fun m => !isStrongBoundary m),
          isToolResultFor tc.id r = true := by
  intro ms
  induction ms with
  | nil =>
      intro now pending existing tc _ hb
      simp [secondPass] at hb
  | cons x xs ih =>
      intro now pending existing tc htc hb
      have hpend : pending.length > 0 := List.length_pos.mpr (List.ne_nil_of_mem htc)
      by_cases hex : existing.contains tc.id = true
      · exact Or.inl hex
      · right
        have hexf : existing.contains tc.id = false := by
          simpa using hex
        match x with
        | .toolResult r =>
            simp only [secondPass] at hb ⊢
            by_cases hr : r.toolCallId = tc.id
            · refine ⟨.toolResult r, ?_, by simp [isToolResultFor, hr]⟩
              rw [List.takeWhile_cons_of_pos (by rfl)]
              exact List.mem_cons_self _ _
            · have hb' : ∃ b ∈ secondPass now ⟨pending, r.toolCallId :: existing⟩ xs,
                  isStrongBoundary b = true := by
                obtain ⟨b, hbmem, hbb⟩ := hb
                rcases List.mem_cons.mp hbmem with h | h
                · rw [h] at hbb; simp [isStrongBoundary, isUserB, isAssistantB] at hbb
                · exact ⟨b, h, hbb⟩
              have := ih now pending (r.toolCallId :: existing) tc htc hb'
              rcases this with h | ⟨r', hr'mem, hr'⟩
              · exfalso
                simp only [List.contains_cons, Bool.or_eq_true, beq_iff_eq] at h
                rcases h with h | h
                · exact hr h.symm
                · rw [hexf] at h
                  exact Bool.false_ne_true h
              · refine ⟨r', ?_, hr'⟩
                rw [List.takeWhile_cons_of_pos (by rfl)]
                exact List.mem_cons_of_mem _ hr'mem
        | .user u =>
            simp only [secondPass, hpend, if_pos hpend] at hb ⊢
            refine ⟨syntheticResult now tc, ?_, by simp [syntheticResult, isToolResultFor]⟩
            rw [takeWhile_append_all _ _
              (fun z hz => by simp [flushOrphans_not_strong hz])]
            exact List.mem_append.mpr (Or.inl (mem_flushOrphans_of htc hexf))
        | .assistant a =>
            simp only [secondPass, hpend, if_pos hpend] at hb ⊢
            split at hb
            · -- errored assistant: synthetic results are still flushed first
              refine ⟨syntheticResult now tc, ?_, by simp [syntheticResult, isToolResultFor]⟩
              split
              · rw [takeWhile_append_all _ _
                  (fun z hz => by simp [flushOrphans_not_strong hz])]
                exact List.mem_append.mpr (Or.inl (mem_flushOrphans_of htc hexf))
              · rw [takeWhile_append_all _ _
                  (fun z hz => by simp [flushOrphans_not_strong hz])]
                exact List.mem_append.mpr (Or.inl (mem_flushOrphans_of htc hexf))
            · refine ⟨syntheticResult now tc, ?_, by simp [syntheticResult, isToolResultFor]⟩
              split
              · rw [takeWhile_append_all _ _
                  (fun z hz => by simp [flushOrphans_not_strong hz])]
                exact List.mem_append.mpr (Or.inl (mem_flushOrphans_of htc hexf))
              · rw [takeWhile_append_all _ _
                  (fun z hz => by simp [flushOrphans_not_strong hz])]
                exact List.mem_append.mpr (Or.inl (mem_flushOrphans_of htc hexf))

end Pi

namespace Pi

/-- Orphan closure of the second pass, with the stronger boundary (any user or
assistant message): every tool call of an emitted assistant is matched by a
tool result before the next boundary, whenever a boundary follows. -/
theorem secondPass_closed :
    ∀ (l : List Message) (now : Nat) (st : PendingState)
      (l₁ : List Message) (a : AssistantMessage) (l₂ : List Message) (tc : ToolCall),
      secondPass now st l = l₁ ++ .assistant a :: l₂ →
      tc ∈ toolCallsOf a →
      (∃ b ∈ l₂, isStrongBoundary b = true) →
      ∃ r ∈ l₂.takeWhile (fun m => !isStrongBoundary m), isToolResultFor tc.id r = true := by
  intro l
  induction l with
  | nil =>
      intro now st l₁ a l₂ tc h _ _
      simp only [secondPass] at h
      exact absurd h.symm (List.append_ne_nil_of_right_ne_nil l₁ (List.cons_ne_nil _ _))
  | cons x xs ih =>
      intro now st l₁ a l₂ tc hsplit htc hbound
      match x with
      | .toolResult r =>
          simp only [secondPass] at hsplit
          match l₁, hsplit with
          | [], hsplit => exact absurd (List.head_eq_of_cons_eq hsplit) (by simp)
          | y :: l₁', hsplit =>
              exact ih now _ l₁' a l₂ tc (List.tail_eq_of_cons_eq hsplit) htc hbound
      | .user u =>
          simp only [secondPass] at hsplit
          obtain ⟨l₃, h₃⟩ := assistant_split_in_tail _ _ _ _ _ hsplit (by
            intro z hz
            revert hz; split <;> intro hz
            · exact flushOrphans_not_assistant hz
            · simp at hz)
          match l₃, h₃ with
          | [], h₃ => exact absurd (List.head_eq_of_cons_eq h₃) (by simp)
          | y :: l₃', h₃ =>
              exact ih now _ l₃' a l₂ tc (List.tail_eq_of_cons_eq h₃) htc hbound
      | .assistant a2 =>
          simp only [secondPass] at hsplit
          split at hsplit
          · -- errored assistant skipped: the emission is flushed ++ recursion
            obtain ⟨l₃, h₃⟩ := assistant_split_in_tail _ _ _ _ _ hsplit (by
              intro z hz
              revert hz; split <;> intro hz
              · exact flushOrphans_not_assistant hz
              · simp at hz)
            exact ih now _ l₃ a l₂ tc h₃ htc hbound
          · obtain ⟨l₃, h₃⟩ := assistant_split_in_tail _ _ _ _ _ hsplit (by
              intro z hz
              revert hz; split <;> intro hz
              · exact flushOrphans_not_assistant hz
              · simp at hz)
            match l₃, h₃ with
            | [], h₃ =>
                -- the split assistant is this very message
                have ha : a2 = a := Message.assistant.inj (List.head_eq_of_cons_eq h₃)
                have htail := List.tail_eq_of_cons_eq h₃
                subst ha
                have hcalls : (toolCallsOf a2).length > 0 :=
                  List.length_pos.mpr (List.ne_nil_of_mem htc)
                rw [if_pos hcalls] at htail
                have := secondPass_pending_resolved xs now (toolCallsOf a2) [] tc htc
                  (by rw [htail]; exact hbound)
                rcases this with h | h
                · simp at h
                · rw [htail] at h; exact h
            | y :: l₃', h₃ =>
                exact ih now _ l₃' a l₂ tc (List.tail_eq_of_cons_eq h₃) htc hbound

theorem claimBoundary_strong {m : Message} (h : isClaimBoundary m = true) :
    isStrongBoundary m = true := by
  cases m <;> simp_all [isClaimBoundary, isStrongBoundary, isUserB, isAssistantB, hasToolCallsB]

end Pi

namespace Pi

/-! ### Claim C1 / C2 fixtures -/

def wMdl : ModelId := ⟨"p1", "a1", "m1"⟩

def wTc : ToolCall := ⟨"t1", "tool", .obj [], none⟩

/-- A cross-model assistant message carrying one tool call. -/
def wAsst : AssistantMessage :=
  ⟨[.toolCall wTc], .toolUse, "p2", "a2", "m2", Usage.zero, none, 0⟩

def wUser : Message := .user ⟨.str "hi", 5⟩

/-- An errored assistant message. -/
def wErrAsst : AssistantMessage :=
  ⟨[.text "boom" none], .error, "p2", "a2", "m2", Usage.zero, some "fail", 0⟩

/-- C1: Orphan closure of the cross-model transform.  For every input history
and target model, every tool call of an assistant retained in the output of
`transformMessages` is matched by a tool result before the next user message
or the next assistant-with-tool-calls of the output (the unresolved ones being
closed by synthetic `"No result provided"` results). -/
theorem transform_orphan_closure
    (messages : List Message) (mdl : ModelId) (norm : Option Normalizer) (now : Nat)
    (l₁ : List Message) (a : AssistantMessage) (l₂ : List Message) (tc : ToolCall)
    (hsplit : transformMessages messages mdl norm now = l₁ ++ .assistant a :: l₂)
    (htc : tc ∈ toolCallsOf a)
    (hbound : ∃ b ∈ l₂, isClaimBoundary b = true) :
    ∃ r ∈ l₂.takeWhile (fun m => !isClaimBoundary m), isToolResultFor tc.id r = true := by
  obtain ⟨b, hbm, hbb⟩ := hbound
  obtain ⟨r, hrm, hr⟩ := secondPass_closed _ now ⟨[], []⟩ l₁ a l₂ tc hsplit htc
    ⟨b, hbm, claimBoundary_strong hbb⟩
  refine ⟨r, mem_takeWhile_mono ?_ l₂ r hrm, hr⟩
  intro m hm
  cases hq : isClaimBoundary m
  · rfl
  · have := claimBoundary_strong hq
    simp [this] at hm

theorem transform_orphan_closure_witness :
    ∃ r ∈ ([syntheticResult 99 wTc, wUser].takeWhile fun m => !isClaimBoundary m),
      isToolResultFor wTc.id r = true :=
  transform_orphan_closure [.assistant wAsst, wUser] wMdl none 99 [] wAsst
    [syntheticResult 99 wTc, wUser] wTc (by decide) (by decide)
    ⟨wUser, by decide, by decide⟩

/-- C2: Drop-errored.  The output of `transformMessages` contains no assistant
message whose stopReason is `error` or `aborted`. -/
theorem transform_drop_errored
    (messages : List Message) (mdl : ModelId) (norm : Option Normalizer) (now : Nat)
    (m : Message) (h : m ∈ transformMessages messages mdl norm now) :
    isErroredAssistant m = false :=
  secondPass_no_errored _ now ⟨[], []⟩ m h

theorem transform_drop_errored_witness :
    isErroredAssistant wUser = false :=
  transform_drop_errored [.assistant wErrAsst, wUser] wMdl none 99 wUser (by decide)

end Pi

namespace Pi

/-! ### State threading of the second pass -/

/-- The messages emitted by the second pass for one input message. -/
def spEmit (now : Nat) (st : PendingState) : Message → List Message
  | .assistant a =>
      let flushed := if st.pendingToolCalls.length > 0 then flushOrphans now st else []
      if a.stopReason = .error ∨ a.stopReason = .aborted then flushed
      else flushed ++ [.assistant a]
  | .toolResult r => [.toolResult r]
  | .user u =>
      (if st.pendingToolCalls.length > 0 then flushOrphans now st else []) ++ [.user u]

/-- The state of the second pass after one input message. -/
def spStep (st : PendingState) : Message → PendingState
  | .assistant a =>
      let st1 : PendingState := if st.pendingToolCalls.length > 0 then ⟨[], []⟩ else st
      if a.stopReason = .error ∨ a.stopReason = .aborted then st1
      else if (toolCallsOf a).length > 0 then ⟨toolCallsOf a, []⟩ else st1
  | .toolResult r => { st with existingToolResultIds := r.toolCallId :: st.existingToolResultIds }
  | .user _ => if st.pendingToolCalls.length > 0 then ⟨[], []⟩ else st

theorem secondPass_cons (now : Nat) (st : PendingState) (m : Message) (ms : List Message) :
    secondPass now st (m :: ms) = spEmit now st m ++ secondPass now (spStep st m) ms := by
  cases m with
  | user u => simp [secondPass, spEmit, spStep]
  | toolResult r => simp [secondPass, spEmit, spStep]
  | assistant a =>
      simp only [secondPass, spEmit, spStep]
      split
      · simp
      · split <;> simp

theorem secondPass_append (now : Nat) :
    ∀ (xs ys : List Message) (st : PendingState),
      secondPass now st (xs ++ ys) =
        secondPass now st xs ++ secondPass now (xs.foldl spStep st) ys := by
  intro xs
  induction xs with
  | nil => intro ys st; simp [secondPass]
  | cons x xs ih =>
      intro ys st
      rw [List.cons_append, secondPass_cons, ih ys (spStep st x), secondPass_cons,
        List.foldl_cons, List.append_assoc]

/-- Input messages that are neither user nor assistant pass through the second
pass untouched, with no synthetic insertions. -/
theorem secondPass_only_toolResults (now : Nat) :
    ∀ (ms : List Message) (st : PendingState),
      (∀ m ∈ ms, isUserB m = false ∧ isAssistantB m = false) →
      secondPass now st ms = ms := by
  intro ms
  induction ms with
  | nil => intro st _; simp [secondPass]
  | cons m ms ih =>
      intro st h
      have hm := h m (List.mem_cons_self m ms)
      match m with
      | .user _ => simp [isUserB] at hm
      | .assistant _ => simp [isAssistantB] at hm
      | .toolResult r =>
          simp only [secondPass]
          rw [ih _ (fun z hz => h z (List.mem_cons_of_mem (Message.toolResult r) hz))]

/-! ### First-pass structure lemmas -/

theorem firstPass_cons (mdl : ModelId) (norm : Option Normalizer) (st : IdMap)
    (m : Message) (ms : List Message) :
    firstPass mdl norm st (m :: ms) =
      ((firstPass mdl norm (transformOne mdl norm st m).1 ms).1,
        (transformOne mdl norm st m).2 ::
          (firstPass mdl norm (transformOne mdl norm st m).1 ms).2) := by
  simp [firstPass]

/-- The count of tool calls in a block's first-pass image. -/
theorem transformAssistantBlock_toolCall_count (mdl : ModelId) (norm : Option Normalizer)
    (src : AssistantMessage) (isSame : Bool) (st : IdMap) (b : AssistantBlock) :
    ((transformAssistantBlock mdl norm src isSame st b).2.filterMap
        (fun b => match b with | .toolCall tc => some tc | _ => none)).length =
      (([b].filterMap (fun b => match b with | .toolCall tc => some tc | _ => none)).length) := by
  cases b with
  | text t sig => simp only [transformAssistantBlock]; split_ifs <;> simp
  | thinking t sig => simp only [transformAssistantBlock]; split_ifs <;> simp
  | toolCall tc =>
      cases norm <;> simp only [transformAssistantBlock] <;> split_ifs <;> simp

/-- The first pass preserves the number of tool calls of an assistant message. -/
theorem transformAssistant_toolCall_count (mdl : ModelId) (norm : Option Normalizer)
    (st : IdMap) (a : AssistantMessage) :
    (toolCallsOf (transformAssistant mdl norm st a).2).length = (toolCallsOf a).length := by
  simp only [transformAssistant, toolCallsOf]
  generalize (a.provider == mdl.provider && a.api == mdl.api && a.model == mdl.id) = isSame
  suffices h : ∀ (bs : List AssistantBlock) (st0 : IdMap) (acc : List AssistantBlock),
      ((bs.foldl (fun (acc : IdMap × List AssistantBlock) b =>
          let step := transformAssistantBlock mdl norm a isSame acc.1 b
          (step.1, acc.2 ++ step.2)) (st0, acc)).2.filterMap
        (fun b => match b with | .toolCall tc => some tc | _ => none)).length =
      (acc.filterMap (fun b => match b with | .toolCall tc => some tc | _ => none)).length +
        (bs.filterMap (fun b => match b with | .toolCall tc => some tc | _ => none)).length by
    simpa using h a.content st []
  intro bs
  induction bs with
  | nil => intro st0 acc; simp
  | cons b bs ih =>
      intro st0 acc
      rw [List.foldl_cons]
      rw [ih]
      have hc := transformAssistantBlock_toolCall_count mdl norm a isSame st0 b
      simp only [List.filterMap_append, List.length_append]
      simp only [List.filterMap_cons] at *
      cases b with
      | text t sig => simp_all; try omega
      | thinking t sig => simp_all; try omega
      | toolCall tc => simp_all; try omega

end Pi

namespace Pi

theorem firstPass_append (mdl : ModelId) (norm : Option Normalizer) :
    ∀ (xs ys : List Message) (st : IdMap),
      firstPass mdl norm st (xs ++ ys) =
        ((firstPass mdl norm (firstPass mdl norm st xs).1 ys).1,
          (firstPass mdl norm st xs).2 ++ (firstPass mdl norm (firstPass mdl norm st xs).1 ys).2) := by
  intro xs
  induction xs with
  | nil => intro ys st; simp [firstPass]
  | cons x xs ih =>
      intro ys st
      rw [List.cons_append, firstPass_cons, ih ys, firstPass_cons]
      simp

/-- The first pass maps non-user, non-assistant messages (tool results) to
messages of the same kind. -/
theorem firstPass_preserves_nonboundary (mdl : ModelId) (norm : Option Normalizer) :
    ∀ (ms : List Message) (st : IdMap),
      (∀ m ∈ ms, isUserB m = false ∧ isAssistantB m = false) →
      ∀ m' ∈ (firstPass mdl norm st ms).2, isUserB m' = false ∧ isAssistantB m' = false := by
  intro ms
  induction ms with
  | nil => intro st _ m' h; simp [firstPass] at h
  | cons m ms ih =>
      intro st h m' hm'
      rw [firstPass_cons] at hm'
      rcases List.mem_cons.mp hm' with h1 | h1
      · subst h1
        have := h m (List.mem_cons_self m ms)
        match m with
        | .toolResult r =>
            simp only [transformOne]
            split <;> try split
            all_goals simp [isUserB, isAssistantB]
        | .user u => simp [isUserB] at this
        | .assistant a => simp [isAssistantB] at this
      · exact ih _ (fun z hz => h z (List.mem_cons_of_mem m hz)) m' h1

theorem transformAssistant_stopReason (mdl : ModelId) (norm : Option Normalizer)
    (st : IdMap) (a : AssistantMessage) :
    (transformAssistant mdl norm st a).2.stopReason = a.stopReason := by
  simp [transformAssistant]

/-- C10 counterexample for the claim as stated: when the trailing
tool-carrying assistant is errored, it is dropped entirely (no synthetic
results either), so the output does not end with the assistant message. -/
def c10ErrAsst : AssistantMessage :=
  ⟨[.toolCall wTc], .error, "p2", "a2", "m2", Usage.zero, some "boom", 0⟩

theorem transform_trailing_orphans_cex :
    (toolCallsOf c10ErrAsst).length > 0 ∧
      transformMessages [.assistant c10ErrAsst] wMdl none 99 = [] := by
  constructor
  · decide
  · rfl

/-- C10 (amended): trailing-orphan edge case.  If the last assistant of the
input is retained (stopReason not error/aborted), carries tool calls, and only
non-user, non-assistant messages follow it, the transform emits no synthetic
tool result for those calls: the output ends with the first-pass image of the
assistant and of its trailing messages, unchanged by the second pass. -/
theorem transform_trailing_orphans
    (l₁ : List Message) (a : AssistantMessage) (l₂ : List Message)
    (mdl : ModelId) (norm : Option Normalizer) (now : Nat)
    (hstop : a.stopReason ≠ .error ∧ a.stopReason ≠ .aborted)
    (hcalls : (toolCallsOf a).length > 0)
    (htail : ∀ m ∈ l₂, isUserB m = false ∧ isAssistantB m = false) :
    ∃ out₁, transformMessages (l₁ ++ .assistant a :: l₂) mdl norm now =
      out₁ ++ (firstPass mdl norm (firstPass mdl norm [] l₁).1 (.assistant a :: l₂)).2 := by
  unfold transformMessages
  rw [firstPass_append]
  set st1 := (firstPass mdl norm [] l₁).1 with hst1
  rw [firstPass_cons]
  set A := (transformOne mdl norm st1 (.assistant a)).2 with hA
  set stA := (transformOne mdl norm st1 (.assistant a)).1 with hstA
  have hAdef : A = .assistant (transformAssistant mdl norm st1 a).2 := by
    rw [hA]; simp [transformOne]
  rw [secondPass_append]
  set st2 := (firstPass mdl norm [] l₁).2.foldl spStep ⟨[], []⟩ with hst2
  rw [secondPass_cons]
  have hsr : (transformAssistant mdl norm st1 a).2.stopReason = a.stopReason :=
    transformAssistant_stopReason mdl norm st1 a
  have hnc : ¬((transformAssistant mdl norm st1 a).2.stopReason = .error ∨
      (transformAssistant mdl norm st1 a).2.stopReason = .aborted) := by
    rw [hsr]; rw [not_or]; exact hstop
  have hAc : (toolCallsOf (transformAssistant mdl norm st1 a).2).length > 0 := by
    rw [transformAssistant_toolCall_count]; exact hcalls
  have hemit : spEmit now st2 A =
      (if st2.pendingToolCalls.length > 0 then flushOrphans now st2 else []) ++ [A] := by
    rw [hAdef]; simp only [spEmit]; rw [if_neg hnc]
  have hstep : spStep st2 A = ⟨toolCallsOf (transformAssistant mdl norm st1 a).2, []⟩ := by
    rw [hAdef]; simp only [spStep]; rw [if_neg hnc, if_pos hAc]
  have hid : secondPass now (spStep st2 A) (firstPass mdl norm stA l₂).2 =
      (firstPass mdl norm stA l₂).2 := by
    apply secondPass_only_toolResults
    exact firstPass_preserves_nonboundary mdl norm l₂ stA htail
  rw [hemit, hid]
  refine ⟨secondPass now ⟨[], []⟩ (firstPass mdl norm [] l₁).2 ++
    (if st2.pendingToolCalls.length > 0 then flushOrphans now st2 else []), ?_⟩
  simp [List.append_assoc]

theorem transform_trailing_orphans_witness :
    ∃ out₁, transformMessages [.assistant wAsst] wMdl none 99 =
      out₁ ++ (firstPass wMdl none (firstPass wMdl none [] []).1 [.assistant wAsst]).2 :=
  transform_trailing_orphans [] wAsst [] wMdl none 99 (by decide) (by decide)
    (fun m hm => absurd hm (by simp))

end Pi

namespace Pi

/-! ### Idempotence machinery for the normalizer-free transform -/

/-- The first pass without a normalizer never changes the id map. -/
theorem transformAssistantBlock_none_state (mdl : ModelId) (src : AssistantMessage)
    (isSame : Bool) (st : IdMap) (b : AssistantBlock) :
    (transformAssistantBlock mdl none src isSame st b).1 = st := by
  cases b <;> simp only [transformAssistantBlock] <;> split_ifs <;> rfl

/-- Every block emitted by the normalizer-free first pass is a fixed point of
the block transform (at any state, for any source message). -/
theorem transformAssistantBlock_none_idem (mdl : ModelId) (src src' : AssistantMessage)
    (isSame : Bool) (st : IdMap) (b₀ : AssistantBlock) :
    ∀ b ∈ (transformAssistantBlock mdl none src isSame st b₀).2,
      ∀ st' : IdMap, transformAssistantBlock mdl none src' isSame st' b = (st', [b]) := by
  cases b₀ with
  | text t sig =>
      intro b hb st'
      simp only [transformAssistantBlock] at hb
      by_cases hs : isSame
      · rw [if_pos hs] at hb
        simp only [List.mem_singleton] at hb
        subst hb
        simp [transformAssistantBlock, hs]
      · rw [if_neg hs] at hb
        simp only [List.mem_singleton] at hb
        subst hb
        simp [transformAssistantBlock, hs]
  | thinking t sig =>
      intro b hb st'
      simp only [transformAssistantBlock] at hb
      by_cases h1 : (isSame && sig.isSome) = true
      · rw [if_pos h1] at hb
        simp only [List.mem_singleton] at hb
        subst hb
        simp [transformAssistantBlock, h1]
      · rw [if_neg h1] at hb
        by_cases h2 : t.trim = ""
        · rw [if_pos h2] at hb
          simp at hb
        · rw [if_neg h2] at hb
          by_cases h3 : isSame
          · rw [if_pos h3] at hb
            simp only [List.mem_singleton] at hb
            subst hb
            simp only [transformAssistantBlock]
            rw [if_neg h1, if_neg h2, if_pos h3]
          · rw [if_neg h3] at hb
            simp only [List.mem_singleton] at hb
            subst hb
            simp [transformAssistantBlock, h3]
  | toolCall tc =>
      intro b hb st'
      simp only [transformAssistantBlock] at hb
      by_cases hc : (!isSame && tc.thoughtSignature.isSome) = true
      · rw [if_pos hc] at hb
        simp only [List.mem_singleton] at hb
        subst hb
        have hs : isSame = false := by
          rw [Bool.and_eq_true] at hc
          simpa using hc.1
        simp [transformAssistantBlock, hs]
      · rw [if_neg hc] at hb
        simp only [List.mem_singleton] at hb
        subst hb
        simp only [transformAssistantBlock]
        rw [if_neg hc]

/-- Generic membership lemma for the content fold of `transformAssistant`. -/
theorem transformAssistant_fold_mem (mdl : ModelId) (norm : Option Normalizer)
    (src : AssistantMessage) (isSame : Bool) :
    ∀ (bs : List AssistantBlock) (st0 : IdMap) (acc : List AssistantBlock) (b : AssistantBlock),
      b ∈ (bs.foldl (fun (acc : IdMap × List AssistantBlock) b =>
          let step := transformAssistantBlock mdl norm src isSame acc.1 b
          (step.1, acc.2 ++ step.2)) (st0, acc)).2 →
      b ∈ acc ∨ ∃ b₀ ∈ bs, ∃ st', b ∈ (transformAssistantBlock mdl norm src isSame st' b₀).2 := by
  intro bs
  induction bs with
  | nil => intro st0 acc b h; simp at h; exact Or.inl h
  | cons x xs ih =>
      intro st0 acc b h
      rw [List.foldl_cons] at h
      rcases ih _ _ b h with h1 | ⟨b₀, hb₀, st'', h2⟩
      · rcases List.mem_append.mp h1 with h2 | h2
        · exact Or.inl h2
        · exact Or.inr ⟨x, List.mem_cons_self x xs, st0, h2⟩
      · exact Or.inr ⟨b₀, List.mem_cons_of_mem x hb₀, st'', h2⟩

/-- Generic identity lemma for the content fold when every block is fixed. -/
theorem transformAssistant_fold_id (mdl : ModelId) (src : AssistantMessage) (isSame : Bool) :
    ∀ (bs : List AssistantBlock) (st0 : IdMap) (acc : List AssistantBlock),
      (∀ b ∈ bs, ∀ st' : IdMap, transformAssistantBlock mdl none src isSame st' b = (st', [b])) →
      bs.foldl (fun (acc : IdMap × List AssistantBlock) b =>
          let step := transformAssistantBlock mdl none src isSame acc.1 b
          (step.1, acc.2 ++ step.2)) (st0, acc) = (st0, acc ++ bs) := by
  intro bs
  induction bs with
  | nil => intro st0 acc _; simp
  | cons x xs ih =>
      intro st0 acc h
      rw [List.foldl_cons]
      have hx := h x (List.mem_cons_self x xs) st0
      simp only [hx]
      rw [ih _ _ (fun b hb => h b (List.mem_cons_of_mem x hb))]
      simp

theorem transformAssistant_fields (mdl : ModelId) (norm : Option Normalizer)
    (st : IdMap) (a : AssistantMessage) :
    (transformAssistant mdl norm st a).2.provider = a.provider ∧
      (transformAssistant mdl norm st a).2.api = a.api ∧
      (transformAssistant mdl norm st a).2.model = a.model := by
  simp [transformAssistant]

/-- The normalizer-free assistant transform is idempotent. -/
theorem transformAssistant_none_idem (mdl : ModelId) (st st' : IdMap) (a : AssistantMessage) :
    transformAssistant mdl none st' (transformAssistant mdl none st a).2 =
      (st', (transformAssistant mdl none st a).2) := by
  have hfields := transformAssistant_fields mdl none st a
  set A := (transformAssistant mdl none st a).2 with hA
  have hsame : (A.provider == mdl.provider && A.api == mdl.api && A.model == mdl.id) =
      (a.provider == mdl.provider && a.api == mdl.api && a.model == mdl.id) := by
    rw [hfields.1, hfields.2.1, hfields.2.2]
  show transformAssistant mdl none st' A = (st', A)
  have hcontent : A.content = (a.content.foldl (fun (acc : IdMap × List AssistantBlock) b =>
      let step := transformAssistantBlock mdl none a
        (a.provider == mdl.provider && a.api == mdl.api && a.model == mdl.id) acc.1 b
      (step.1, acc.2 ++ step.2)) (st, [])).2 := by
    rw [hA]; simp [transformAssistant]
  have hfix : ∀ b ∈ A.content, ∀ st'' : IdMap,
      transformAssistantBlock mdl none A
        (a.provider == mdl.provider && a.api == mdl.api && a.model == mdl.id) st'' b =
      (st'', [b]) := by
    intro b hb st''
    rw [hcontent] at hb
    rcases transformAssistant_fold_mem mdl none a _ a.content st [] b hb with h | ⟨b₀, _, stx, h⟩
    · simp at h
    · exact transformAssistantBlock_none_idem mdl a A _ stx b₀ b h st''
  simp only [transformAssistant, hsame]
  rw [transformAssistant_fold_id mdl A _ A.content st' [] hfix]
  simp

/-- Assistants in the second-pass output come from its input. -/
theorem secondPass_assistant_mem :
    ∀ (l : List Message) (now : Nat) (st : PendingState) (a : AssistantMessage),
      .assistant a ∈ secondPass now st l → .assistant a ∈ l := by
  intro l
  induction l with
  | nil => intro now st a h; simp [secondPass] at h
  | cons x xs ih =>
      intro now st a h
      match x with
      | .toolResult r =>
          simp only [secondPass, List.mem_cons] at h
          rcases h with h | h
          · exact absurd h.symm (by simp)
          · exact List.mem_cons_of_mem _ (ih now _ a h)
      | .user u =>
          simp only [secondPass, List.mem_append, List.mem_cons] at h
          rcases h with h | h | h
          · exact absurd (flushOrphans_not_assistant (by
              revert h; split <;> intro h
              · exact h
              · simp at h)) (by simp [isAssistantB])
          · exact absurd h.symm (by simp)
          · exact List.mem_cons_of_mem _ (ih now _ a h)
      | .assistant a2 =>
          simp only [secondPass] at h
          split at h
          · simp only [List.mem_append] at h
            rcases h with h | h
            · exact absurd (flushOrphans_not_assistant (by
                revert h; split <;> intro h
                · exact h
                · simp at h)) (by simp [isAssistantB])
            · exact List.mem_cons_of_mem _ (ih now _ a h)
          · simp only [List.mem_append, List.mem_cons] at h
            rcases h with h | h | h
            · exact absurd (flushOrphans_not_assistant (by
                revert h; split <;> intro h
                · exact h
                · simp at h)) (by simp [isAssistantB])
            · rw [Message.assistant.inj h]; exact List.mem_cons_self _ _
            · exact List.mem_cons_of_mem _ (ih now _ a h)

/-- Assistants in the first-pass output are images of `transformAssistant`. -/
theorem firstPass_assistant_shape (mdl : ModelId) (norm : Option Normalizer) :
    ∀ (ms : List Message) (st : IdMap) (a : AssistantMessage),
      .assistant a ∈ (firstPass mdl norm st ms).2 →
      ∃ a₀ st₀, a = (transformAssistant mdl norm st₀ a₀).2 := by
  intro ms
  induction ms with
  | nil => intro st a h; simp [firstPass] at h
  | cons m ms ih =>
      intro st a h
      rw [firstPass_cons] at h
      rcases List.mem_cons.mp h with h1 | h1
      · match m, h1 with
        | .user u, h1 => exact absurd h1.symm (by simp [transformOne])
        | .toolResult r, h1 =>
            exfalso
            revert h1
            simp only [transformOne]
            split
            · split <;> simp
            · simp
        | .assistant a₀, h1 =>
            refine ⟨a₀, st, ?_⟩
            simp only [transformOne] at h1
            exact Message.assistant.inj h1
      · exact ih _ a h1
end Pi

namespace Pi

/-- The orphan-closure property of a message list, with the strong boundary. -/
def ClosedStrongProp (l : List Message) : Prop :=
  ∀ (l₁ : List Message) (a : AssistantMessage) (l₂ : List Message) (tc : ToolCall),
    l = l₁ ++ .assistant a :: l₂ → tc ∈ toolCallsOf a →
    (∃ b ∈ l₂, isStrongBoundary b = true) →
    ∃ r ∈ l₂.takeWhile (fun m => !isStrongBoundary m), isToolResultFor tc.id r = true

/-- The pending state is consistent with the remaining input. -/
def PendingRel (st : PendingState) (l : List Message) : Prop :=
  ∀ tc ∈ st.pendingToolCalls,
    st.existingToolResultIds.contains tc.id = true ∨
      ((∃ b ∈ l, isStrongBoundary b = true) →
        ∃ r ∈ l.takeWhile (fun m => !isStrongBoundary m), isToolResultFor tc.id r = true)

theorem closedStrong_tail {m : Message} {ms : List Message}
    (h : ClosedStrongProp (m :: ms)) : ClosedStrongProp ms := by
  intro l₁ a l₂ tc hsplit htc hb
  exact h (m :: l₁) a l₂ tc (by rw [hsplit]; rfl) htc hb

theorem flushOrphans_empty {now : Nat} {st : PendingState}
    (h : ∀ tc ∈ st.pendingToolCalls, st.existingToolResultIds.contains tc.id = true) :
    flushOrphans now st = [] := by
  simp only [flushOrphans]
  rw [List.filter_eq_nil_iff.mpr]
  · rfl
  · intro tc htc
    simp [List.mem_of_elem_eq_true (h tc htc)]

/-- At a strong boundary at the head, `PendingRel` forces all pending calls to
be recorded as existing. -/
theorem pendingRel_at_boundary {st : PendingState} {m : Message} {ms : List Message}
    (hrel : PendingRel st (m :: ms)) (hb : isStrongBoundary m = true) :
    ∀ tc ∈ st.pendingToolCalls, st.existingToolResultIds.contains tc.id = true := by
  intro tc htc
  rcases hrel tc htc with h | h
  · exact h
  · exfalso
    obtain ⟨r, hr, _⟩ := h ⟨m, List.mem_cons_self m ms, hb⟩
    rw [List.takeWhile_cons_of_neg (by simp [hb])] at hr
    simp at hr

/-- On a list that is already orphan-closed and free of errored assistants, the
second pass is the identity. -/
theorem secondPass_id (now : Nat) :
    ∀ (l : List Message) (st : PendingState),
      (∀ m ∈ l, isErroredAssistant m = false) →
      ClosedStrongProp l → PendingRel st l →
      secondPass now st l = l := by
  intro l
  induction l with
  | nil => intro st _ _ _; simp [secondPass]
  | cons m ms ih =>
      intro st herr hclosed hrel
      have herr' : ∀ z ∈ ms, isErroredAssistant z = false :=
        fun z hz => herr z (List.mem_cons_of_mem m hz)
      match m with
      | .toolResult r =>
          simp only [secondPass]
          rw [ih _ herr' (closedStrong_tail hclosed) ?_]
          intro tc htc
          rcases hrel tc htc with h | h
          · exact Or.inl (by simp only [List.contains_cons, h, Bool.or_true])
          · by_cases hid : r.toolCallId = tc.id
            · exact Or.inl (by simp [List.contains_cons, hid])
            · right
              intro hb
              obtain ⟨r', hr', hres⟩ := h ⟨hb.choose, List.mem_cons_of_mem _ hb.choose_spec.1,
                hb.choose_spec.2⟩
              rw [List.takeWhile_cons_of_pos (by rfl)] at hr'
              rcases List.mem_cons.mp hr' with h1 | h1
              · exfalso
                subst h1
                simp only [isToolResultFor, beq_iff_eq] at hres
                exact hid hres
              · exact ⟨r', h1, hres⟩
      | .user u =>
          have hfl : ∀ tc ∈ st.pendingToolCalls, st.existingToolResultIds.contains tc.id = true :=
            pendingRel_at_boundary hrel (by rfl)
          simp only [secondPass]
          rw [flushOrphans_empty hfl]
          have htail : secondPass now
              (if st.pendingToolCalls.length > 0 then (⟨[], []⟩ : PendingState) else st) ms = ms := by
            apply ih _ herr' (closedStrong_tail hclosed)
            split
            · intro tc htc; simp at htc
            · rename_i hlen
              have : st.pendingToolCalls = [] := by
                cases h : st.pendingToolCalls with
                | nil => rfl
                | cons p ps => exfalso; apply hlen; rw [h]; simp
              intro tc htc
              rw [this] at htc
              simp at htc
          rw [htail]
          split <;> simp
      | .assistant a =>
          have hfl : ∀ tc ∈ st.pendingToolCalls, st.existingToolResultIds.contains tc.id = true :=
            pendingRel_at_boundary hrel (by rfl)
          have hnoterr : ¬(a.stopReason = .error ∨ a.stopReason = .aborted) := by
            have := herr (.assistant a) (List.mem_cons_self _ _)
            simp only [isErroredAssistant, Bool.or_eq_false_iff, decide_eq_false_iff_not] at this
            rw [not_or]; exact this
          simp only [secondPass]
          rw [if_neg hnoterr, flushOrphans_empty hfl]
          have htail : secondPass now
              (if (toolCallsOf a).length > 0 then (⟨toolCallsOf a, []⟩ : PendingState)
               else if st.pendingToolCalls.length > 0 then (⟨[], []⟩ : PendingState) else st) ms
              = ms := by
            apply ih _ herr' (closedStrong_tail hclosed)
            split
            · intro tc htc
              right
              intro hb
              exact hclosed [] a ms tc rfl htc hb
            · split
              · intro tc htc; simp at htc
              · rename_i hlen1 hlen2
                have : st.pendingToolCalls = [] := by
                  cases h : st.pendingToolCalls with
                  | nil => rfl
                  | cons p ps => exfalso; apply hlen2; rw [h]; simp
                intro tc htc
                rw [this] at htc
                simp at htc
          rw [htail]
          split <;> simp

end Pi

namespace Pi

/-- If every message of a list is a fixed point of the (state-preserving)
normalizer-free first-pass step, the first pass is the identity on it. -/
theorem firstPass_id_of_fixed (mdl : ModelId) :
    ∀ (ms : List Message),
      (∀ m ∈ ms, transformOne mdl none [] m = ([], m)) →
      firstPass mdl none [] ms = ([], ms) := by
  intro ms
  induction ms with
  | nil => intro _; simp [firstPass]
  | cons m ms ih =>
      intro h
      rw [firstPass_cons, h m (List.mem_cons_self m ms)]
      rw [ih (fun z hz => h z (List.mem_cons_of_mem m hz))]

/-- Every message emitted by the normalizer-free transform is a fixed point of
the first-pass step at the empty id map. -/
theorem transform_output_fixed (messages : List Message) (mdl : ModelId) (now : Nat) :
    ∀ m ∈ transformMessages messages mdl none now, transformOne mdl none [] m = ([], m) := by
  intro m hm
  match m with
  | .user u => simp [transformOne]
  | .toolResult r => simp [transformOne, List.lookup]
  | .assistant a =>
      have h1 : Message.assistant a ∈ (firstPass mdl none [] messages).2 :=
        secondPass_assistant_mem _ now ⟨[], []⟩ a hm
      obtain ⟨a₀, st₀, rfl⟩ := firstPass_assistant_shape mdl none messages [] a h1
      simp only [transformOne]
      rw [transformAssistant_none_idem]

/-- C5 counterexample: with the deterministic normalizer that appends `"x"` to
every id, applying the transform twice renames the tool call id twice, so the
second application is not a no-op. -/
def c5norm : Normalizer := fun i _ _ => i ++ "x"

theorem transform_idempotence_cex :
    transformMessages (transformMessages [.assistant wAsst] wMdl (some c5norm) 99)
        wMdl (some c5norm) 99 ≠
      transformMessages [.assistant wAsst] wMdl (some c5norm) 99 := by
  decide

/-- C5 (amended): when no tool-call-id normalizer is supplied, the transform is
idempotent: a second application with the same target model is a no-op. -/
theorem transform_idempotent_no_normalizer
    (messages : List Message) (mdl : ModelId) (now now₂ : Nat) :
    transformMessages (transformMessages messages mdl none now) mdl none now₂ =
      transformMessages messages mdl none now := by
  have hfix := transform_output_fixed messages mdl now
  show secondPass now₂ ⟨[], []⟩
      (firstPass mdl none [] (transformMessages messages mdl none now)).2 =
    transformMessages messages mdl none now
  rw [firstPass_id_of_fixed mdl _ hfix]
  apply secondPass_id
  · exact fun m hm => secondPass_no_errored _ now ⟨[], []⟩ m hm
  · intro l₁ a l₂ tc hsplit htc hb
    exact secondPass_closed _ now ⟨[], []⟩ l₁ a l₂ tc hsplit htc hb
  · intro tc htc
    simp at htc

theorem transform_idempotent_no_normalizer_witness :
    transformMessages (transformMessages [.assistant wAsst, wUser] wMdl none 99)
        wMdl none 42 =
      transformMessages [.assistant wAsst, wUser] wMdl none 99 :=
  transform_idempotent_no_normalizer [.assistant wAsst, wUser] wMdl 99 42

end Pi

namespace Pi

/-! ### Compaction (packages/coding-agent/src/core/compaction/compaction.ts)

`AgentMessage` extends the LM-facing union with the coding agent's custom
variants; `SessionEntry` is the persistent log record consumed by the
cut-point finder (payloads that the embedded functions never inspect are
omitted). -/

inductive AgentMessage where
  | user (m : UserMessage)
  | assistant (m : AssistantMessage)
  | toolResult (m : ToolResultMessage)
  | bashExecution (command : String) (output : String) (exitCode : Option Int)
      (cancelled : Bool) (truncated : Bool) (timestamp : Nat)
  | custom (content : UserContent) (timestamp : Nat)
  | branchSummary (summary : String) (timestamp : Nat)
  | compactionSummary (summary : String) (tokensBefore : Nat) (timestamp : Nat)
deriving DecidableEq, Repr

inductive SessionEntry where
  | message (message : AgentMessage)
  | custom_message
  | branch_summary
  | compaction
  | thinking_level_change
  | model_change
  | label
  | custom
deriving DecidableEq, Repr

/-- `Math.ceil(chars / 4)` on natural numbers. -/
def ceilDiv4 (chars : Nat) : Nat := (chars + 3) / 4

/-- Characters contributed by user-content blocks: text lengths only
(`estimateTokens`' user branch ignores images). -/
def userBlocksTextChars : List UserBlock → Nat
  | [] => 0
  | .text t :: bs => t.length + userBlocksTextChars bs
  | .image _ :: bs => userBlocksTextChars bs

/-- Characters contributed by toolResult / custom content blocks: text lengths
plus 4800 per image (`// Estimate images as 4000 chars, or 1200 tokens`). -/
def resultBlocksChars : List UserBlock → Nat
  | [] => 0
  | .text t :: bs => t.length + resultBlocksChars bs
  | .image _ :: bs => 4800 + resultBlocksChars bs

/-- Characters contributed by assistant content blocks. -/
def assistantBlocksChars : List AssistantBlock → Nat
  | [] => 0
  | .text t _ :: bs => t.length + assistantBlocksChars bs
  | .thinking t _ :: bs => t.length + assistantBlocksChars bs
  | .toolCall tc :: bs =>
      tc.name.length + (Json.serialize tc.arguments).length + assistantBlocksChars bs

/-- `estimateTokens(message)`: the chars/4 heuristic. -/
def estimateTokens : AgentMessage → Nat
  | .user u =>
      match u.content with
      | .str s => ceilDiv4 s.length
      | .blocks bs => ceilDiv4 (userBlocksTextChars bs)
  | .assistant a => ceilDiv4 (assistantBlocksChars a.content)
  | .custom c _ =>
      match c with
      | .str s => ceilDiv4 s.length
      | .blocks bs => ceilDiv4 (resultBlocksChars bs)
  | .toolResult r =>
      match r.content with
      | .str s => ceilDiv4 s.length
      | .blocks bs => ceilDiv4 (resultBlocksChars bs)
  | .bashExecution command output _ _ _ _ => ceilDiv4 (command.length + output.length)
  | .branchSummary summary _ => ceilDiv4 summary.length
  | .compactionSummary summary _ _ => ceilDiv4 summary.length

/-- Is a session entry a valid cut point (`findValidCutPoints` body)?  It is
iff it is a `message` whose role is not `toolResult`, or a `branch_summary` /
`custom_message` entry. -/
def isValidCutEntry : SessionEntry → Bool
  | .message m =>
      match m with
      | .toolResult _ => false
      | _ => true
  | .branch_summary => true
  | .custom_message => true
  | _ => false

def isToolResultEntry : SessionEntry → Bool
  | .message (.toolResult _) => true
  | _ => false

def isMessageEntry : SessionEntry → Bool
  | .message _ => true
  | _ => false

/-- `findValidCutPoints(entries, startIndex, endIndex)`. -/
def findValidCutPoints (entries : List SessionEntry) (startIndex endIndex : Nat) : List Nat :=
  (List.range' startIndex (endIndex - startIndex)).filter
    (fun i => match entries.get? i with
      | some en => isValidCutEntry en
      | none => false)

/-- The backward token-accumulation walk of `findCutPoint`, over the index list
`[endIndex-1, ..., startIndex]`: accumulate `estimateTokens` for `message`
entries and stop at the first index where the total reaches the budget. -/
def cutPointWalk (entries : List SessionEntry) (keepRecentTokens : Nat) :
    List Nat → Nat → Option Nat
  | [], _ => none
  | i :: rest, acc =>
      match entries.get? i with
      | some (.message m) =>
          let acc2 := acc + estimateTokens m
          if acc2 ≥ keepRecentTokens then some i
          else cutPointWalk entries keepRecentTokens rest acc2
      | _ => cutPointWalk entries keepRecentTokens rest acc

/-- Selection of the cut index from the walk's stop index: the closest valid
cut point at or after it, defaulting to the first valid cut point. -/
def selectCutIndex (cutPoints : List Nat) (c0 : Nat) : Option Nat → Nat
  | none => c0
  | some i =>
      match cutPoints.find? (fun c => decide (c ≥ i)) with
      | some c => c
      | none => c0

/-- The leftward expansion absorbing adjacent non-message entries, stopping at
compaction boundaries and message entries. -/
def expandCut (entries : List SessionEntry) (startIndex : Nat) : Nat → Nat
  | 0 => 0
  | n + 1 =>
      if n + 1 > startIndex then
        match entries.get? n with
        | some .compaction => n + 1
        | some (.message _) => n + 1
        | some _ => expandCut entries startIndex n
        | none => n + 1
      else n + 1

/-- `findTurnStartIndex(entries, entryIndex, startIndex)`: scan down for the
user / bashExecution (or branch_summary / custom_message entry) starting the
turn; `-1` when none. -/
def findTurnStartIndex (entries : List SessionEntry) (entryIndex startIndex : Nat) : Int :=
  match entryIndex with
  | 0 =>
      if 0 < startIndex then -1
      else
        match entries.get? 0 with
        | some .branch_summary => 0
        | some .custom_message => 0
        | some (.message (.user _)) => 0
        | some (.message (.bashExecution _ _ _ _ _ _)) => 0
        | _ => -1
  | n + 1 =>
      if n + 1 < startIndex then -1
      else
        match entries.get? (n + 1) with
        | some .branch_summary => Int.ofNat (n + 1)
        | some .custom_message => Int.ofNat (n + 1)
        | some (.message (.user _)) => Int.ofNat (n + 1)
        | some (.message (.bashExecution _ _ _ _ _ _)) => Int.ofNat (n + 1)
        | _ => findTurnStartIndex entries n startIndex

structure CutPointResult where
  firstKeptEntryIndex : Nat
  turnStartIndex : Int
  isSplitTurn : Bool
deriving DecidableEq, Repr

/-- `findCutPoint(entries, startIndex, endIndex, keepRecentTokens)`. -/
def findCutPoint (entries : List SessionEntry) (startIndex endIndex keepRecentTokens : Nat) :
    CutPointResult :=
  let cutPoints := findValidCutPoints entries startIndex endIndex
  match cutPoints with
  | [] => ⟨startIndex, -1, false⟩
  | c0 :: _ =>
      let stop := cutPointWalk entries keepRecentTokens
        ((List.range' startIndex (endIndex - startIndex)).reverse) 0
      let cutIndex := expandCut entries startIndex (selectCutIndex cutPoints c0 stop)
      let isUserMessage :=
        match entries.get? cutIndex with
        | some (.message (.user _)) => true
        | _ => false
      let turnStart := if isUserMessage then -1
        else findTurnStartIndex entries cutIndex startIndex
      ⟨cutIndex, turnStart, !isUserMessage && turnStart ≠ -1⟩

end Pi

namespace Pi

/-! ### Claim C6: token estimation heuristic -/

/-- Spec-side reading of "the message's concatenated textual fields". -/
def specTextChars : AgentMessage → Nat
  | .user u =>
      match u.content with
      | .str s => s.length
      | .blocks bs => userBlocksTextChars bs
  | .assistant a => assistantBlocksChars a.content
  | .custom c _ =>
      match c with
      | .str s => s.length
      | .blocks bs => userBlocksTextChars bs
  | .toolResult r =>
      match r.content with
      | .str s => s.length
      | .blocks bs => userBlocksTextChars bs
  | .bashExecution command output _ _ _ _ => command.length + output.length
  | .branchSummary summary _ => summary.length
  | .compactionSummary summary _ _ => summary.length

def userContentImageCount : UserContent → Nat
  | .str _ => 0
  | .blocks bs => (bs.filter (fun b => match b with | .image _ => true | _ => false)).length

/-- Images that `estimateTokens` actually charges for: only those embedded in
toolResult and custom messages. -/
def countedImages : AgentMessage → Nat
  | .custom c _ => userContentImageCount c
  | .toolResult r => userContentImageCount r.content
  | _ => 0

/-- Spec-side image count of the claim as stated: every embedded image,
"regardless of which message role carries the image". -/
def imagesAnyRole : AgentMessage → Nat
  | .user u => userContentImageCount u.content
  | .custom c _ => userContentImageCount c
  | .toolResult r => userContentImageCount r.content
  | _ => 0

theorem resultBlocksChars_split (bs : List UserBlock) :
    resultBlocksChars bs =
      userBlocksTextChars bs +
        4800 * (bs.filter (fun b => match b with | .image _ => true | _ => false)).length := by
  induction bs with
  | nil => rfl
  | cons b bs ih =>
      cases b with
      | text t => simp [resultBlocksChars, userBlocksTextChars, List.filter, ih]; ring
      | image d => simp [resultBlocksChars, userBlocksTextChars, List.filter, ih]; ring

theorem ceilDiv4_add_4800 (t n : Nat) : ceilDiv4 (t + 4800 * n) = ceilDiv4 t + 1200 * n := by
  simp only [ceilDiv4]
  have h : t + 4800 * n + 3 = (t + 3) + (1200 * n) * 4 := by ring
  rw [h, Nat.add_mul_div_right _ _ (by norm_num : (0:Nat) < 4)]

/-- C6 counterexample: an image embedded in a *user* message contributes no
tokens at all, against the claim's "regardless of which message role carries
the image": the claimed formula gives 1200 here, `estimateTokens` gives 0. -/
def wUserImg : AgentMessage := .user ⟨.blocks [.image "img"], 0⟩

theorem estimateTokens_image_cex :
    estimateTokens wUserImg ≠
      ceilDiv4 (specTextChars wUserImg) + 1200 * imagesAnyRole wUserImg := by
  decide

/-- C6 (amended): `estimateTokens` returns the character count of the
message's concatenated textual fields divided by 4 (rounded up), plus a fixed
1200 tokens per embedded image in toolResult and custom messages; images
carried by user messages are not counted. -/
theorem estimateTokens_heuristic (m : AgentMessage) :
    estimateTokens m = ceilDiv4 (specTextChars m) + 1200 * countedImages m := by
  cases m with
  | user u =>
      cases h : u.content <;>
        simp [estimateTokens, specTextChars, countedImages, h]
  | assistant a => simp [estimateTokens, specTextChars, countedImages]
  | custom c ts =>
      cases h : c <;>
        simp [estimateTokens, specTextChars, countedImages, userContentImageCount, h,
          resultBlocksChars_split, ceilDiv4_add_4800]
  | toolResult r =>
      cases h : r.content <;>
        simp [estimateTokens, specTextChars, countedImages, userContentImageCount, h,
          resultBlocksChars_split, ceilDiv4_add_4800]
  | bashExecution c o e ca tr ts => simp [estimateTokens, specTextChars, countedImages]
  | branchSummary s ts => simp [estimateTokens, specTextChars, countedImages]
  | compactionSummary s tb ts => simp [estimateTokens, specTextChars, countedImages]

end Pi

namespace Pi

/-! ### Claim C3: cut-point legality -/

theorem isValidCutEntry_not_toolResult {en : SessionEntry}
    (h : isValidCutEntry en = true) : isToolResultEntry en = false := by
  cases en with
  | message m => cases m <;> simp_all [isValidCutEntry, isToolResultEntry]
  | _ => rfl

theorem mem_findValidCutPoints {entries : List SessionEntry} {s e i : Nat}
    (h : i ∈ findValidCutPoints entries s e) :
    s ≤ i ∧ i < e ∧ ∃ en, entries.get? i = some en ∧ isValidCutEntry en = true := by
  simp only [findValidCutPoints, List.mem_filter, List.mem_range'_1] at h
  obtain ⟨⟨h1, h2⟩, h3⟩ := h
  refine ⟨h1, by omega, ?_⟩
  revert h3
  cases h : entries.get? i with
  | none => simp
  | some en => intro h3; exact ⟨en, rfl, h3⟩

theorem selectCutIndex_mem {cutPoints : List Nat} {c0 : Nat} (hc0 : c0 ∈ cutPoints)
    (stop : Option Nat) : selectCutIndex cutPoints c0 stop ∈ cutPoints := by
  cases stop with
  | none => exact hc0
  | some i =>
      simp only [selectCutIndex]
      cases h : cutPoints.find? (fun c => decide (c ≥ i)) with
      | none => exact hc0
      | some c => exact List.mem_of_find?_eq_some h

/-- The leftward expansion either returns its input or lands on a non-message,
non-compaction entry. -/
theorem expandCut_shape (entries : List SessionEntry) (s : Nat) :
    ∀ c, expandCut entries s c = c ∨
      ∃ en, entries.get? (expandCut entries s c) = some en ∧
        isMessageEntry en = false ∧ en ≠ .compaction := by
  intro c
  induction c with
  | zero => exact Or.inl rfl
  | succ n ih =>
      simp only [expandCut]
      split
      · cases hget : entries.get? n with
        | none => exact Or.inl rfl
        | some en =>
            cases en with
            | compaction => exact Or.inl rfl
            | message m => exact Or.inl rfl
            | custom_message =>
                rcases ih with h | h
                · exact Or.inr ⟨.custom_message, by rw [h]; exact ⟨hget, rfl, by simp⟩⟩
                · exact Or.inr h
            | branch_summary =>
                rcases ih with h | h
                · exact Or.inr ⟨.branch_summary, by rw [h]; exact ⟨hget, rfl, by simp⟩⟩
                · exact Or.inr h
            | thinking_level_change =>
                rcases ih with h | h
                · exact Or.inr ⟨.thinking_level_change, by rw [h]; exact ⟨hget, rfl, by simp⟩⟩
                · exact Or.inr h
            | model_change =>
                rcases ih with h | h
                · exact Or.inr ⟨.model_change, by rw [h]; exact ⟨hget, rfl, by simp⟩⟩
                · exact Or.inr h
            | label =>
                rcases ih with h | h
                · exact Or.inr ⟨.label, by rw [h]; exact ⟨hget, rfl, by simp⟩⟩
                · exact Or.inr h
            | custom =>
                rcases ih with h | h
                · exact Or.inr ⟨.custom, by rw [h]; exact ⟨hget, rfl, by simp⟩⟩
                · exact Or.inr h
      · exact Or.inl rfl

/-- C3 counterexample: with a `thinking_level_change` entry between two user
messages and a zero keep-recent budget, `findCutPoint` places
`firstKeptEntryIndex` on the metadata entry (absorbed by the leftward
expansion), which is neither the boundary start nor an entry of a legal
cut-point kind. -/
def c3Entries : List SessionEntry :=
  [.message (.user ⟨.str "", 0⟩), .thinking_level_change, .message (.user ⟨.str "", 0⟩)]

theorem findCutPoint_legality_cex :
    (findCutPoint c3Entries 0 3 0).firstKeptEntryIndex = 1 ∧
      c3Entries.get? 1 = some .thinking_level_change ∧
      isValidCutEntry .thinking_level_change = false := by
  decide

/-- C3 (amended): `findCutPoint(entries, s, e, k).firstKeptEntryIndex` is
either `s`, or the index of an entry of a legal cut-point kind, or the index
of a non-message, non-compaction metadata entry absorbed by the leftward
expansion; when it differs from `s` it is never the index of a toolResult
message entry. -/
theorem findCutPoint_legality (entries : List SessionEntry) (s e k : Nat) :
    (findCutPoint entries s e k).firstKeptEntryIndex = s ∨
      ∃ en, entries.get? (findCutPoint entries s e k).firstKeptEntryIndex = some en ∧
        (isValidCutEntry en = true ∨ (isMessageEntry en = false ∧ en ≠ .compaction)) ∧
        isToolResultEntry en = false := by
  simp only [findCutPoint]
  cases hcp : findValidCutPoints entries s e with
  | nil => exact Or.inl rfl
  | cons c0 rest =>
      simp only []
      set ci := selectCutIndex (c0 :: rest) c0
        (cutPointWalk entries k ((List.range' s (e - s)).reverse) 0) with hci
      have hmem : ci ∈ findValidCutPoints entries s e := by
        rw [hcp]; exact selectCutIndex_mem (List.mem_cons_self c0 rest) _
      obtain ⟨_, _, en0, hen0, hval0⟩ := mem_findValidCutPoints hmem
      rcases expandCut_shape entries s ci with h | ⟨en, hget, hmsg, hcomp⟩
      · rw [h]
        exact Or.inr ⟨en0, hen0, Or.inl hval0, isValidCutEntry_not_toolResult hval0⟩
      · refine Or.inr ⟨en, hget, Or.inr ⟨hmsg, hcomp⟩, ?_⟩
        cases en <;> simp_all [isMessageEntry, isToolResultEntry]

end Pi

namespace Pi

/-! ### Claim C4: keep-recent monotonicity -/

theorem findValidCutPoints_sorted (entries : List SessionEntry) (s e : Nat) :
    (findValidCutPoints entries s e).Pairwise (· < ·) :=
  List.Pairwise.filter _ (List.pairwise_lt_range' s (e - s))

theorem mem_findValidCutPoints_of {entries : List SessionEntry} {s e i : Nat}
    {en : SessionEntry} (h1 : s ≤ i) (h2 : i < e) (hget : entries.get? i = some en)
    (hval : isValidCutEntry en = true) : i ∈ findValidCutPoints entries s e := by
  simp only [findValidCutPoints, List.mem_filter, List.mem_range'_1]
  exact ⟨⟨h1, by omega⟩, by rw [hget]; exact hval⟩

theorem cutPointWalk_mem (entries : List SessionEntry) (k : Nat) :
    ∀ (idxs : List Nat) (acc i : Nat), cutPointWalk entries k idxs acc = some i → i ∈ idxs := by
  intro idxs
  induction idxs with
  | nil => intro acc i h; simp [cutPointWalk] at h
  | cons j rest ih =>
      intro acc i h
      cases hget : entries.get? j with
      | some en =>
          cases en with
          | message m =>
              simp only [cutPointWalk, hget] at h
              by_cases hacc : acc + estimateTokens m ≥ k
              · rw [if_pos hacc] at h
                exact (Option.some.inj h) ▸ List.mem_cons_self j rest
              · rw [if_neg hacc] at h
                exact List.mem_cons_of_mem j (ih _ i h)
          | custom_message =>
              simp only [cutPointWalk, hget] at h
              exact List.mem_cons_of_mem j (ih _ i h)
          | branch_summary =>
              simp only [cutPointWalk, hget] at h
              exact List.mem_cons_of_mem j (ih _ i h)
          | compaction =>
              simp only [cutPointWalk, hget] at h
              exact List.mem_cons_of_mem j (ih _ i h)
          | thinking_level_change =>
              simp only [cutPointWalk, hget] at h
              exact List.mem_cons_of_mem j (ih _ i h)
          | model_change =>
              simp only [cutPointWalk, hget] at h
              exact List.mem_cons_of_mem j (ih _ i h)
          | label =>
              simp only [cutPointWalk, hget] at h
              exact List.mem_cons_of_mem j (ih _ i h)
          | custom =>
              simp only [cutPointWalk, hget] at h
              exact List.mem_cons_of_mem j (ih _ i h)
      | none =>
          simp only [cutPointWalk, hget] at h
          exact List.mem_cons_of_mem j (ih _ i h)

theorem cutPointWalk_stop_entry (entries : List SessionEntry) (k : Nat) :
    ∀ (idxs : List Nat) (acc i : Nat), cutPointWalk entries k idxs acc = some i →
      ∃ m, entries.get? i = some (.message m) := by
  intro idxs
  induction idxs with
  | nil => intro acc i h; simp [cutPointWalk] at h
  | cons j rest ih =>
      intro acc i h
      cases hget : entries.get? j with
      | some en =>
          cases en with
          | message m =>
              simp only [cutPointWalk, hget] at h
              by_cases hacc : acc + estimateTokens m ≥ k
              · rw [if_pos hacc] at h
                exact ⟨m, (Option.some.inj h) ▸ hget⟩
              · rw [if_neg hacc] at h
                exact ih _ i h
          | custom_message => simp only [cutPointWalk, hget] at h; exact ih _ i h
          | branch_summary => simp only [cutPointWalk, hget] at h; exact ih _ i h
          | compaction => simp only [cutPointWalk, hget] at h; exact ih _ i h
          | thinking_level_change => simp only [cutPointWalk, hget] at h; exact ih _ i h
          | model_change => simp only [cutPointWalk, hget] at h; exact ih _ i h
          | label => simp only [cutPointWalk, hget] at h; exact ih _ i h
          | custom => simp only [cutPointWalk, hget] at h; exact ih _ i h
      | none => simp only [cutPointWalk, hget] at h; exact ih _ i h

/-- Raising the budget moves the walk's stop index weakly earlier in the list,
i.e. weakly larger (the walk visits indices in decreasing order). -/
theorem cutPointWalk_mono (entries : List SessionEntry) :
    ∀ (idxs : List Nat), idxs.Pairwise (· > ·) →
      ∀ (acc k1 k2 i2 : Nat), k1 ≤ k2 →
        cutPointWalk entries k2 idxs acc = some i2 →
        ∃ i1, cutPointWalk entries k1 idxs acc = some i1 ∧ i2 ≤ i1 := by
  intro idxs
  induction idxs with
  | nil => intro _ acc k1 k2 i2 _ h; simp [cutPointWalk] at h
  | cons j rest ih =>
      intro hpw acc k1 k2 i2 hk h
      have hpw' := (List.pairwise_cons.mp hpw)
      cases hget : entries.get? j with
      | some en =>
          cases en with
          | message m =>
              simp only [cutPointWalk, hget] at h ⊢
              by_cases hacc2 : acc + estimateTokens m ≥ k2
              · rw [if_pos hacc2] at h
                rw [if_pos (le_trans hk hacc2)]
                exact ⟨j, rfl, le_of_eq (Option.some.inj h).symm⟩
              · rw [if_neg hacc2] at h
                by_cases hacc1 : acc + estimateTokens m ≥ k1
                · rw [if_pos hacc1]
                  have hi2 : i2 ∈ rest := cutPointWalk_mem entries k2 rest _ i2 h
                  exact ⟨j, rfl, le_of_lt (hpw'.1 i2 hi2)⟩
                · rw [if_neg hacc1]
                  exact ih hpw'.2 _ k1 k2 i2 hk h
          | custom_message =>
              simp only [cutPointWalk, hget] at h ⊢; exact ih hpw'.2 _ k1 k2 i2 hk h
          | branch_summary =>
              simp only [cutPointWalk, hget] at h ⊢; exact ih hpw'.2 _ k1 k2 i2 hk h
          | compaction =>
              simp only [cutPointWalk, hget] at h ⊢; exact ih hpw'.2 _ k1 k2 i2 hk h
          | thinking_level_change =>
              simp only [cutPointWalk, hget] at h ⊢; exact ih hpw'.2 _ k1 k2 i2 hk h
          | model_change =>
              simp only [cutPointWalk, hget] at h ⊢; exact ih hpw'.2 _ k1 k2 i2 hk h
          | label =>
              simp only [cutPointWalk, hget] at h ⊢; exact ih hpw'.2 _ k1 k2 i2 hk h
          | custom =>
              simp only [cutPointWalk, hget] at h ⊢; exact ih hpw'.2 _ k1 k2 i2 hk h
      | none =>
          simp only [cutPointWalk, hget] at h ⊢; exact ih hpw'.2 _ k1 k2 i2 hk h

/-- On an ascending list, the first element `≥ i` is weakly monotone in `i`. -/
theorem find?_ge_mono :
    ∀ (l : List Nat), l.Pairwise (· < ·) →
      ∀ (i1 i2 c1 : Nat), i2 ≤ i1 →
        l.find? (fun c => decide (c ≥ i1)) = some c1 →
        ∃ c2, l.find? (fun c => decide (c ≥ i2)) = some c2 ∧ c2 ≤ c1 := by
  intro l
  induction l with
  | nil => intro _ i1 i2 c1 _ h; simp at h
  | cons c cs ih =>
      intro hpw i1 i2 c1 hi h
      have hpw' := List.pairwise_cons.mp hpw
      by_cases h2 : c ≥ i2
      · refine ⟨c, by rw [List.find?_cons_of_pos _ (by simpa using h2)], ?_⟩
        have hc1 : c1 ∈ c :: cs := List.mem_of_find?_eq_some h
        rcases List.mem_cons.mp hc1 with h1 | h1
        · omega
        · exact le_of_lt (hpw'.1 c1 h1)
      · have h1 : ¬(c ≥ i1) := by omega
        rw [List.find?_cons_of_neg _ (by simpa using h1)] at h
        obtain ⟨c2, hc2, hle⟩ := ih hpw'.2 i1 i2 c1 hi h
        exact ⟨c2, by rw [List.find?_cons_of_neg _ (by simpa using h2)]; exact hc2, hle⟩

theorem expandCut_le (entries : List SessionEntry) (s : Nat) :
    ∀ c, expandCut entries s c ≤ c := by
  intro c
  induction c with
  | zero => simp [expandCut]
  | succ n ih =>
      simp only [expandCut]
      split
      · cases hget : entries.get? n with
        | none => simp
        | some en => cases en <;> simp_all <;> omega
      · simp

theorem expandCut_mono (entries : List SessionEntry) (s : Nat) :
    ∀ c1 c2, c2 ≤ c1 → expandCut entries s c2 ≤ expandCut entries s c1 := by
  intro c1
  induction c1 with
  | zero => intro c2 h; interval_cases c2; exact le_refl _
  | succ n ih =>
      intro c2 h
      by_cases hc : c2 = n + 1
      · subst hc; exact le_refl _
      · have hle : c2 ≤ n := by omega
        have h2 : expandCut entries s c2 ≤ c2 := expandCut_le entries s c2
        simp only [expandCut]
        split
        · cases hget : entries.get? n with
          | none => simp only [hget]; omega
          | some en =>
              cases en with
              | compaction => simp only [hget]; omega
              | message m => simp only [hget]; omega
              | custom_message => simp only [hget]; exact ih c2 hle
              | branch_summary => simp only [hget]; exact ih c2 hle
              | thinking_level_change => simp only [hget]; exact ih c2 hle
              | model_change => simp only [hget]; exact ih c2 hle
              | label => simp only [hget]; exact ih c2 hle
              | custom => simp only [hget]; exact ih c2 hle
        · omega

end Pi

namespace Pi

/-- C4 counterexample: on `[user(40 chars), user(40 chars), toolResult(40
chars)]` (10 estimated tokens each), budget 5 stops the backward walk at the
trailing toolResult, after the last valid cut point, so `findCutPoint` falls
back to the first valid cut point and keeps all three entries; budget 15 stops
at index 1 and keeps only two.  A larger budget thus retains fewer entries. -/
def c4User : AgentMessage := .user ⟨.blocks [.text (String.mk (List.replicate 40 'a'))], 0⟩

def c4ToolResult : AgentMessage :=
  .toolResult ⟨"t", "n", .blocks [.text (String.mk (List.replicate 40 'b'))], false, 0⟩

def c4Entries : List SessionEntry := [.message c4User, .message c4User, .message c4ToolResult]

theorem findCutPoint_monotone_cex :
    (findCutPoint c4Entries 0 3 5).firstKeptEntryIndex = 0 ∧
      (findCutPoint c4Entries 0 3 15).firstKeptEntryIndex = 1 := by
  constructor <;> rfl

/-- C4 (amended): for a fixed entry list and boundary, the number of retained
tail entries is weakly increasing in the keep-recent budget, provided every
toolResult message entry of the range is followed (at or after its index,
within the range) by a valid cut point; without that proviso the fallback to
the first valid cut point can retain more entries for a smaller budget. -/
theorem findCutPoint_keepRecent_monotone
    (entries : List SessionEntry) (s e k1 k2 : Nat) (hk : k1 ≤ k2)
    (H : ∀ i en, s ≤ i → i < e → entries.get? i = some en → isToolResultEntry en = true →
        ∃ j en2, i ≤ j ∧ j < e ∧ entries.get? j = some en2 ∧ isValidCutEntry en2 = true) :
    (findCutPoint entries s e k2).firstKeptEntryIndex ≤
      (findCutPoint entries s e k1).firstKeptEntryIndex := by
  simp only [findCutPoint]
  cases hcp : findValidCutPoints entries s e with
  | nil => exact le_refl s
  | cons c0 rest =>
      simp only []
      have hsorted : (c0 :: rest).Pairwise (· < ·) := by
        rw [← hcp]; exact findValidCutPoints_sorted entries s e
      have hc0min : ∀ c ∈ c0 :: rest, c0 ≤ c := by
        intro c hc
        rcases List.mem_cons.mp hc with h | h
        · omega
        · exact le_of_lt ((List.pairwise_cons.mp hsorted).1 c h)
      have hrevpw : ((List.range' s (e - s)).reverse).Pairwise (· > ·) := by
        rw [List.pairwise_reverse]
        exact List.Pairwise.imp (fun h => h) (List.pairwise_lt_range' s (e - s))
      cases hstop2 : cutPointWalk entries k2 ((List.range' s (e - s)).reverse) 0 with
      | none =>
          apply expandCut_mono
          exact hc0min _ (by
            rw [← hcp]
            exact selectCutIndex_mem (by rw [hcp]; exact List.mem_cons_self c0 rest)
              (cutPointWalk entries k1 ((List.range' s (e - s)).reverse) 0))
      | some i2 =>
          obtain ⟨i1, hstop1, hi⟩ :=
            cutPointWalk_mono entries _ hrevpw 0 k1 k2 i2 hk hstop2
          rw [hstop1]
          -- the walk's stop index lies in the boundary range
          have hmem1 : i1 ∈ List.range' s (e - s) := by
            have := cutPointWalk_mem entries k1 _ 0 i1 hstop1
            exact List.mem_reverse.mp this
          have hrange1 : s ≤ i1 ∧ i1 < e := by
            have := List.mem_range'_1.mp hmem1
            omega
          -- under the proviso there is always a valid cut point at or after it
          obtain ⟨m1, hm1⟩ := cutPointWalk_stop_entry entries k1 _ 0 i1 hstop1
          have hfind1 : ∃ c1, (c0 :: rest).find? (fun c => decide (c ≥ i1)) = some c1 := by
            rw [← Option.isSome_iff_exists]
            apply List.find?_isSome.mpr
            cases hm : m1 with
            | toolResult r =>
                obtain ⟨j, en2, hj1, hj2, hjget, hjval⟩ :=
                  H i1 (.message m1) hrange1.1 hrange1.2 hm1 (by rw [hm]; rfl)
                refine ⟨j, ?_, by simpa using hj1⟩
                rw [← hcp]
                exact mem_findValidCutPoints_of (le_trans hrange1.1 hj1) hj2 hjget hjval
            | user u =>
                refine ⟨i1, ?_, by simp⟩
                rw [← hcp]
                exact mem_findValidCutPoints_of hrange1.1 hrange1.2 hm1 (by rw [hm]; rfl)
            | assistant a =>
                refine ⟨i1, ?_, by simp⟩
                rw [← hcp]
                exact mem_findValidCutPoints_of hrange1.1 hrange1.2 hm1 (by rw [hm]; rfl)
            | bashExecution c o ec ca tr ts =>
                refine ⟨i1, ?_, by simp⟩
                rw [← hcp]
                exact mem_findValidCutPoints_of hrange1.1 hrange1.2 hm1 (by rw [hm]; rfl)
            | custom c ts =>
                refine ⟨i1, ?_, by simp⟩
                rw [← hcp]
                exact mem_findValidCutPoints_of hrange1.1 hrange1.2 hm1 (by rw [hm]; rfl)
            | branchSummary su ts =>
                refine ⟨i1, ?_, by simp⟩
                rw [← hcp]
                exact mem_findValidCutPoints_of hrange1.1 hrange1.2 hm1 (by rw [hm]; rfl)
            | compactionSummary su tb ts =>
                refine ⟨i1, ?_, by simp⟩
                rw [← hcp]
                exact mem_findValidCutPoints_of hrange1.1 hrange1.2 hm1 (by rw [hm]; rfl)
          obtain ⟨c1, hc1⟩ := hfind1
          obtain ⟨c2, hc2, hcle⟩ := find?_ge_mono (c0 :: rest) hsorted i1 i2 c1 hi hc1
          simp only [selectCutIndex, hc1, hc2]
          exact expandCut_mono entries s c1 c2 hcle

theorem findCutPoint_keepRecent_monotone_witness :
    (findCutPoint [.message c4User, .message c4User] 0 2 15).firstKeptEntryIndex ≤
      (findCutPoint [.message c4User, .message c4User] 0 2 5).firstKeptEntryIndex :=
  findCutPoint_keepRecent_monotone [.message c4User, .message c4User] 0 2 5 15
    (by omega)
    (by
      intro i en _ hi2 hget htr
      interval_cases i <;>
        simp only [List.get?, Option.some.injEq] at hget <;>
        rw [← hget] at htr <;>
        simp [isToolResultEntry, c4User] at htr)

end Pi

namespace Pi

/-! ### Agent loop tool execution (packages/agent/src/agent-loop.ts)

`executeToolCalls` runs the tool calls of one assistant message in order.  The
effectful per-call work (tool lookup, argument validation, `execute`, and the
try/catch collapsing failures into an error result) is abstracted as an
outcome oracle `exec : Nat → ToolOutcome` indexed by call position; the
steering source `getSteeringMessages` is an oracle `steer : Nat → List
Message` consulted once after each executed call; `Date.now()` is the `now`
parameter. -/

/-- `AgentToolResult` (`details` is opaque and never inspected; omitted). -/
structure AgentToolResult where
  content : List UserBlock
deriving DecidableEq, Repr

inductive AgentEvent where
  | tool_execution_start (toolCallId toolName : String) (args : Json)
  | tool_execution_update (toolCallId toolName : String) (args : Json)
      (partialResult : AgentToolResult)
  | tool_execution_end (toolCallId toolName : String) (result : AgentToolResult) (isError : Bool)
  | message_start (message : Message)
  | message_end (message : Message)
deriving DecidableEq, Repr

/-- Outcome of executing one tool call: the partial-result snapshots relayed
through `onPartial`, the terminal result, and whether it errored. -/
structure ToolOutcome where
  updates : List AgentToolResult
  result : AgentToolResult
  isError : Bool
deriving DecidableEq, Repr

structure ExecResult where
  toolResults : List ToolResultMessage
  steeringMessages : Option (List Message)
  events : List AgentEvent
  /-- number of calls actually executed through the oracle (not skipped) -/
  executedCount : Nat
deriving DecidableEq, Repr

/-- The fixed result content of `skipToolCall`. -/
def skipResult : AgentToolResult := ⟨[.text "Skipped due to queued user message."]⟩

/-- The toolResult message `skipToolCall` returns. -/
def skipResultOf (now : Nat) (tc : ToolCall) : ToolResultMessage :=
  ⟨tc.id, tc.name, .blocks skipResult.content, true, now⟩

/-- The four events `skipToolCall` pushes. -/
def skipEventsOf (now : Nat) (tc : ToolCall) : List AgentEvent :=
  [.tool_execution_start tc.id tc.name tc.arguments,
   .tool_execution_end tc.id tc.name skipResult true,
   .message_start (.toolResult (skipResultOf now tc)),
   .message_end (.toolResult (skipResultOf now tc))]

/-- The per-call loop of `executeToolCalls`. -/
def execLoop (exec : Nat → ToolOutcome) (steer : Nat → List Message) (now : Nat) :
    List ToolCall → Nat → ExecResult
  | [], _ => ⟨[], none, [], 0⟩
  | tc :: rest, index =>
      let oc := exec index
      let trm : ToolResultMessage := ⟨tc.id, tc.name, .blocks oc.result.content, oc.isError, now⟩
      let evts : List AgentEvent :=
        .tool_execution_start tc.id tc.name tc.arguments ::
          (oc.updates.map (fun p => .tool_execution_update tc.id tc.name tc.arguments p) ++
            [.tool_execution_end tc.id tc.name oc.result oc.isError,
             .message_start (.toolResult trm), .message_end (.toolResult trm)])
      let steering := steer index
      if steering.length > 0 then
        ⟨trm :: rest.map (skipResultOf now), some steering,
          evts ++ rest.flatMap (skipEventsOf now), 1⟩
      else
        let r := execLoop exec steer now rest (index + 1)
        ⟨trm :: r.toolResults, r.steeringMessages, evts ++ r.events, 1 + r.executedCount⟩

def executeToolCalls (exec : Nat → ToolOutcome) (steer : Nat → List Message) (now : Nat)
    (assistantMessage : AssistantMessage) : ExecResult :=
  execLoop exec steer now (toolCallsOf assistantMessage) 0

theorem execLoop_steering (exec : Nat → ToolOutcome) (steer : Nat → List Message) (now : Nat) :
    ∀ (l : List ToolCall) (idx j : Nat), j < l.length →
      (∀ i, i < j → steer (idx + i) = []) → steer (idx + j) ≠ [] →
      (execLoop exec steer now l idx).steeringMessages = some (steer (idx + j)) ∧
      (execLoop exec steer now l idx).executedCount = j + 1 ∧
      (execLoop exec steer now l idx).toolResults.length = l.length ∧
      (execLoop exec steer now l idx).toolResults.drop (j + 1) =
        (l.drop (j + 1)).map (skipResultOf now) ∧
      ∃ evPre, (execLoop exec steer now l idx).events =
        evPre ++ (l.drop (j + 1)).flatMap (skipEventsOf now) := by
  intro l
  induction l with
  | nil => intro idx j hj _ _; simp at hj
  | cons tc rest ih =>
      intro idx j hj hempty hsteer
      cases j with
      | zero =>
          have hpos : (steer idx).length > 0 := by
            cases h : steer idx with
            | nil => exact absurd (by simpa using h) hsteer
            | cons a as => simp
          simp only [execLoop, if_pos hpos]
          refine ⟨by simp, by simp, by simp, by simp, ⟨_, rfl⟩⟩
      | succ j' =>
          have hidx0 : steer idx = [] := by
            have := hempty 0 (Nat.succ_pos j')
            simpa using this
          have hnpos : ¬((steer idx).length > 0) := by rw [hidx0]; simp
          simp only [execLoop, if_neg hnpos]
          have hrec := ih (idx + 1) j' (by simpa using hj)
            (fun i hi => by
              have := hempty (i + 1) (by omega)
              rw [← this]; ring_nf)
            (by
              have : idx + 1 + j' = idx + (j' + 1) := by ring
              rw [this]; exact hsteer)
          have harg : idx + 1 + j' = idx + (j' + 1) := by ring
          rw [harg] at hrec
          obtain ⟨h1, h2, h3, h4, evPre, h5⟩ := hrec
          refine ⟨by simpa using h1, by simp [h2]; omega, by simp [h3]; try omega,
            by simpa using h4, ?_⟩
          refine ⟨(AgentEvent.tool_execution_start tc.id tc.name tc.arguments ::
            (((exec idx).updates.map
                (fun p => AgentEvent.tool_execution_update tc.id tc.name tc.arguments p)) ++
              [AgentEvent.tool_execution_end tc.id tc.name (exec idx).result (exec idx).isError,
               AgentEvent.message_start (.toolResult
                 ⟨tc.id, tc.name, .blocks (exec idx).result.content, (exec idx).isError, now⟩),
               AgentEvent.message_end (.toolResult
                 ⟨tc.id, tc.name, .blocks (exec idx).result.content, (exec idx).isError, now⟩)]))
            ++ evPre, ?_⟩
          simp [h5]

/-- C7: steering skip semantics.  If the steering source is empty after each of
the first `j` executed tool calls and returns a non-empty batch after the
`j`-th, then `executeToolCalls` stores that batch, executes exactly `j + 1`
calls, and every subsequent tool call of the assistant message receives the
synthetic `"Skipped due to queued user message."` toolResult (isError = true),
with its own tool_execution_start/end and message_start/end events appended. -/
theorem executeToolCalls_steering_skip
    (exec : Nat → ToolOutcome) (steer : Nat → List Message) (now : Nat)
    (assistantMessage : AssistantMessage) (j : Nat)
    (hj : j < (toolCallsOf assistantMessage).length)
    (hempty : ∀ i, i < j → steer i = []) (hsteer : steer j ≠ []) :
    (executeToolCalls exec steer now assistantMessage).steeringMessages = some (steer j) ∧
    (executeToolCalls exec steer now assistantMessage).executedCount = j + 1 ∧
    (executeToolCalls exec steer now assistantMessage).toolResults.length =
      (toolCallsOf assistantMessage).length ∧
    (executeToolCalls exec steer now assistantMessage).toolResults.drop (j + 1) =
      ((toolCallsOf assistantMessage).drop (j + 1)).map (skipResultOf now) ∧
    ∃ evPre, (executeToolCalls exec steer now assistantMessage).events =
      evPre ++ ((toolCallsOf assistantMessage).drop (j + 1)).flatMap (skipEventsOf now) := by
  have := execLoop_steering exec steer now (toolCallsOf assistantMessage) 0 j hj
    (fun i hi => by simpa using hempty i hi) (by simpa using hsteer)
  simpa [executeToolCalls] using this

def w7tcA : ToolCall := ⟨"a", "ta", .obj [], none⟩
def w7tcB : ToolCall := ⟨"b", "tb", .obj [], none⟩
def w7tcC : ToolCall := ⟨"c", "tc", .obj [], none⟩

def w7asst : AssistantMessage :=
  ⟨[.toolCall w7tcA, .toolCall w7tcB, .toolCall w7tcC], .toolUse,
    "p1", "a1", "m1", Usage.zero, none, 0⟩

def w7exec : Nat → ToolOutcome := fun _ => ⟨[], ⟨[.text "ok"]⟩, false⟩

def w7steer : Nat → List Message := fun i => if i = 1 then [wUser] else []

theorem executeToolCalls_steering_skip_witness :
    (executeToolCalls w7exec w7steer 7 w7asst).steeringMessages = some (w7steer 1) ∧
    (executeToolCalls w7exec w7steer 7 w7asst).executedCount = 1 + 1 ∧
    (executeToolCalls w7exec w7steer 7 w7asst).toolResults.length =
      (toolCallsOf w7asst).length ∧
    (executeToolCalls w7exec w7steer 7 w7asst).toolResults.drop (1 + 1) =
      ((toolCallsOf w7asst).drop (1 + 1)).map (skipResultOf 7) ∧
    ∃ evPre, (executeToolCalls w7exec w7steer 7 w7asst).events =
      evPre ++ ((toolCallsOf w7asst).drop (1 + 1)).flatMap (skipEventsOf 7) :=
  executeToolCalls_steering_skip w7exec w7steer 7 w7asst 1 (by decide)
    (fun i hi => by interval_cases i; rfl) (by decide)

end Pi

namespace Pi

/-! ### EventStream (the async queue utility)

The producer side of `EventStream<T, R>` is embedded as a pure state machine:
`queue` is the buffered-events array, `waiting` the number of parked consumer
resolvers, `done` the ended flag, `finalResult` the (resolve-once) result
promise, and `delivered` a log of the events handed directly to waiting
consumers.  `push` and `end` are the producer operations. -/

structure EventStreamState (T R : Type) where
  queue : List T
  waiting : Nat
  done : Bool
  finalResult : Option R
  delivered : List T
deriving DecidableEq, Repr

/-- The two constructor parameters of `EventStream`. -/
structure EventStreamSpec (T R : Type) where
  isComplete : T → Bool
  extractResult : T → R

/-- A JS promise resolves only once; later resolutions are ignored. -/
def resolveOnce {R : Type} (o : Option R) (r : R) : Option R :=
  match o with
  | some x => some x
  | none => some r

/-- `push(event)`: no-op if ended; a terminal event marks the stream done and
resolves the final result; the event is handed to a waiting consumer if any,
else buffered. -/
def EventStreamState.push {T R : Type} (sp : EventStreamSpec T R)
    (s : EventStreamState T R) (event : T) : EventStreamState T R :=
  if s.done then s
  else
    let s1 := if sp.isComplete event then
        { s with done := true,
                 finalResult := resolveOnce s.finalResult (sp.extractResult event) }
      else s
    if s1.waiting > 0 then
      { s1 with waiting := s1.waiting - 1, delivered := s1.delivered ++ [event] }
    else
      { s1 with queue := s1.queue ++ [event] }

/-- `end(result?)`: force ended, resolve the result when given, release all
waiting consumers with end-of-sequence. -/
def EventStreamState.endStream {T R : Type} (s : EventStreamState T R)
    (result : Option R) : EventStreamState T R :=
  { s with done := true,
           finalResult := match result with
             | some r => resolveOnce s.finalResult r
             | none => s.finalResult,
           waiting := 0 }

/-- C8: EventStream terminal semantics.  A terminal event pushed on a live
stream (whose result promise is still unresolved) ends it and resolves
`result()` with `extractResult(e)`; once the stream is ended — by a terminal
event or by `end()` — every subsequent `push` is a no-op, so no later-pushed
event is ever enqueued (`queue`) or delivered to the consumer (`delivered`). -/
theorem eventStream_terminal_semantics {T R : Type} (sp : EventStreamSpec T R)
    (s : EventStreamState T R) (e : T) :
    (s.done = true → EventStreamState.push sp s e = s) ∧
    (s.done = false → s.finalResult = none → sp.isComplete e = true →
      (EventStreamState.push sp s e).done = true ∧
      (EventStreamState.push sp s e).finalResult = some (sp.extractResult e)) ∧
    (∀ r, (s.endStream r).done = true) := by
  refine ⟨?_, ?_, ?_⟩
  · intro h
    simp [EventStreamState.push, h]
  · intro hdone hres hterm
    simp only [EventStreamState.push, hdone, Bool.false_eq_true, if_false, hterm, if_true,
      hres]
    constructor
    · split <;> rfl
    · split <;> simp [resolveOnce]
  · intro r
    simp [EventStreamState.endStream]

def w8spec : EventStreamSpec Nat Nat := ⟨fun e => e ≥ 10, fun e => e * 2⟩

def w8live : EventStreamState Nat Nat := ⟨[1, 2], 0, false, none, []⟩

def w8done : EventStreamState Nat Nat := ⟨[], 0, true, some 4, [3]⟩

theorem eventStream_terminal_semantics_witness :
    (EventStreamState.push w8spec w8done 11 = w8done) ∧
      ((EventStreamState.push w8spec w8live 11).done = true ∧
        (EventStreamState.push w8spec w8live 11).finalResult = some (w8spec.extractResult 11)) ∧
      (w8live.endStream (some 7)).done = true :=
  ⟨(eventStream_terminal_semantics w8spec w8done 11).1 rfl,
   (eventStream_terminal_semantics w8spec w8live 11).2.1 rfl rfl (by decide),
   (eventStream_terminal_semantics w8spec w8live 11).2.2 (some 7)⟩

end Pi

namespace Pi

/-! ### Proxy codec (src/unnamed/part_001) -/

/-- Whitespace skipping for the JSON parser. -/
def skipWs : List Char → List Char
  | c :: cs => if c = ' ' ∨ c = '\n' ∨ c = '\t' ∨ c = '\r' then skipWs cs else c :: cs
  | [] => []

/-- String-body parsing (after the opening quote), decoding the common
escapes. -/
def parseStringRest : List Char → Option (String × List Char)
  | [] => none
  | '\\' :: e :: rest =>
      let dec : Option Char :=
        if e = '"' then some '"'
        else if e = '\\' then some '\\'
        else if e = '/' then some '/'
        else if e = 'n' then some '\n'
        else if e = 't' then some '\t'
        else if e = 'r' then some '\r'
        else none
      match dec with
      | some c =>
          match parseStringRest rest with
          | some (s, r) => some (String.singleton c ++ s, r)
          | none => none
      | none => none
  | '"' :: rest => some ("", rest)
  | c :: rest =>
      match parseStringRest rest with
      | some (s, r) => some (String.singleton c ++ s, r)
      | none => none

def parseDigits : List Char → Nat → Option (Nat × List Char)
  | c :: cs, acc =>
      if c.isDigit then
        match parseDigits cs (acc * 10 + (c.toNat - '0'.toNat)) with
        | some r => some r
        | none => some (acc * 10 + (c.toNat - '0'.toNat), cs)
      else none
  | [], _ => none

/-- Integer parsing (the embedding restricts JSON numbers to integers). -/
def parseNumber (s : List Char) : Option (Json × List Char) :=
  match s with
  | '-' :: rest =>
      match parseDigits rest 0 with
      | some (n, r) => some (.num (-(Int.ofNat n)), r)
      | none => none
  | _ =>
      match parseDigits s 0 with
      | some (n, r) => some (.num (Int.ofNat n), r)
      | none => none

mutual

/-- Modelled from the spec: the fault-tolerant streaming JSON parser
(`parseStreamingJson` of packages/ai, whose source is not in the repository
snapshot).  The spec describes it as an incremental parser returning the best
partial object so far; the codec only consults its value on the complete
accumulated argument document, so it is modelled here as a standard recursive
JSON parser (fuel-indexed) that succeeds exactly on complete documents. -/
def parseJsonValue : Nat → List Char → Option (Json × List Char)
  | 0, _ => none
  | fuel + 1, s =>
      match skipWs s with
      | 'n' :: 'u' :: 'l' :: 'l' :: rest => some (.null, rest)
      | 't' :: 'r' :: 'u' :: 'e' :: rest => some (.bool true, rest)
      | 'f' :: 'a' :: 'l' :: 's' :: 'e' :: rest => some (.bool false, rest)
      | '"' :: rest =>
          match parseStringRest rest with
          | some (str, r) => some (.str str, r)
          | none => none
      | '[' :: rest =>
          (match skipWs rest with
           | ']' :: r2 => some (.arr [], r2)
           | _ =>
              match parseArrayItems fuel rest with
              | some (xs, r2) => some (.arr xs, r2)
              | none => none)
      | '\x7b' :: rest =>
          (match skipWs rest with
           | '\x7d' :: r2 => some (.obj [], r2)
           | _ =>
              match parseObjFields fuel rest with
              | some (fs, r2) => some (.obj fs, r2)
              | none => none)
      | other => parseNumber other

def parseArrayItems : Nat → List Char → Option (List Json × List Char)
  | 0, _ => none
  | fuel + 1, s =>
      match parseJsonValue fuel s with
      | some (v, r) =>
          (match skipWs r with
           | ',' :: r2 =>
              (match parseArrayItems fuel r2 with
               | some (vs, r3) => some (v :: vs, r3)
               | none => none)
           | ']' :: r2 => some ([v], r2)
           | _ => none)
      | none => none

def parseObjFields : Nat → List Char → Option (List (String × Json) × List Char)
  | 0, _ => none
  | fuel + 1, s =>
      match skipWs s with
      | '"' :: rest =>
          (match parseStringRest rest with
           | some (key, r) =>
              (match skipWs r with
               | ':' :: r2 =>
                  (match parseJsonValue fuel r2 with
                   | some (v, r3) =>
                      (match skipWs r3 with
                       | ',' :: r4 =>
                          (match parseObjFields fuel r4 with
                           | some (fs, r5) => some ((key, v) :: fs, r5)
                           | none => none)
                       | '\x7d' :: r4 => some ([(key, v)], r4)
                       | _ => none)
                   | none => none)
               | _ => none)
           | none => none)
      | _ => none

end

def parseStreamingJson (s : String) : Option Json :=
  match parseJsonValue (s.length + 1) s.toList with
  | some (j, rest) => if (skipWs rest).isEmpty then some j else none
  | none => none

/-- JavaScript falsiness on JSON values (for the `|| {}` fallback). -/
def Json.falsy : Json → Bool
  | .null => true
  | .bool false => true
  | .num 0 => true
  | .str "" => true
  | _ => false

/-- `parseStreamingJson(partialJson) || {}`. -/
def adjustedParse (s : String) : Json :=
  match parseStreamingJson s with
  | some v => if v.falsy then Json.obj [] else v
  | none => Json.obj []

/-- A content block of the client-side partial message.  `toolcall_start`
attaches a `partialJson` accumulator to the block; `toolcall_end` deletes it
(`none`). -/
inductive ClientBlock where
  | text (text : String) (textSignature : Option String)
  | thinking (thinking : String) (thinkingSignature : Option String)
  | toolCall (tc : ToolCall) (pjson : Option String)
deriving DecidableEq, Repr

def ClientBlock.toBlock : ClientBlock → AssistantBlock
  | .text t s => .text t s
  | .thinking t s => .thinking t s
  | .toolCall tc _ => .toolCall tc

/-- The client's running partial assistant message (built by `streamProxy`). -/
structure ClientPartial where
  content : List ClientBlock
  stopReason : StopReason
  provider : String
  api : String
  model : String
  usage : Usage
  errorMessage : Option String
  timestamp : Nat
deriving DecidableEq, Repr

def initClientPartial (provider api model : String) (now : Nat) : ClientPartial :=
  ⟨[], .stop, provider, api, model, Usage.zero, none, now⟩

/-- `partial.content[i] = block` (writes in conformant streams are at
`i ≤ length`; array holes are not modelled). -/
def setIdx {α : Type} : List α → Nat → α → List α
  | _ :: xs, 0, b => b :: xs
  | [], 0, b => [b]
  | x :: xs, n + 1, b => x :: setIdx xs n b
  | [], _ + 1, b => [b]

/-- `ProxyAssistantMessageEvent`: the wire events with `partial` stripped. -/
inductive ProxyAssistantMessageEvent where
  | start
  | text_start (contentIndex : Nat)
  | text_delta (contentIndex : Nat) (delta : String)
  | text_end (contentIndex : Nat) (contentSignature : Option String)
  | thinking_start (contentIndex : Nat)
  | thinking_delta (contentIndex : Nat) (delta : String)
  | thinking_end (contentIndex : Nat) (contentSignature : Option String)
  | toolcall_start (contentIndex : Nat) (id : String) (toolName : String)
  | toolcall_delta (contentIndex : Nat) (delta : String)
  | toolcall_end (contentIndex : Nat)
  | done (reason : StopReason) (usage : Usage)
  | error (reason : StopReason) (errorMessage : Option String) (usage : Usage)
deriving DecidableEq, Repr

/-- `processProxyEvent(proxyEvent, partial)`: update the client partial.  The
returned wire event (which carries the same partial object) is not modelled;
`throw` becomes `Except.error`. -/
def processProxyEvent (pe : ProxyAssistantMessageEvent) (p : ClientPartial) :
    Except String ClientPartial :=
  match pe with
  | .start => .ok p
  | .text_start i => .ok { p with content := setIdx p.content i (.text "" none) }
  | .text_delta i d =>
      match p.content.get? i with
      | some (.text t sig) => .ok { p with content := setIdx p.content i (.text (t ++ d) sig) }
      | _ => .error "Received text_delta for non-text content"
  | .text_end i sig =>
      match p.content.get? i with
      | some (.text t _) => .ok { p with content := setIdx p.content i (.text t sig) }
      | _ => .error "Received text_end for non-text content"
  | .thinking_start i => .ok { p with content := setIdx p.content i (.thinking "" none) }
  | .thinking_delta i d =>
      match p.content.get? i with
      | some (.thinking t sig) =>
          .ok { p with content := setIdx p.content i (.thinking (t ++ d) sig) }
      | _ => .error "Received thinking_delta for non-thinking content"
  | .thinking_end i sig =>
      match p.content.get? i with
      | some (.thinking t _) => .ok { p with content := setIdx p.content i (.thinking t sig) }
      | _ => .error "Received thinking_end for non-thinking content"
  | .toolcall_start i id toolName =>
      .ok { p with
        content := setIdx p.content i (.toolCall ⟨id, toolName, Json.obj [], none⟩ (some "")) }
  | .toolcall_delta i d =>
      match p.content.get? i with
      | some (.toolCall tc pj) =>
          -- JS `content.partialJson += delta` coerces a deleted accumulator to
          -- the string "undefined"; conformant streams never hit that case.
          let pj2 := (match pj with | some s => s | none => "undefined") ++ d
          .ok { p with
            content := setIdx p.content i
              (.toolCall { tc with arguments := adjustedParse pj2 } (some pj2)) }
      | _ => .error "Received toolcall_delta for non-toolCall content"
  | .toolcall_end i =>
      match p.content.get? i with
      | some (.toolCall tc _) => .ok { p with content := setIdx p.content i (.toolCall tc none) }
      | _ => .ok p
  | .done reason usage => .ok { p with stopReason := reason, usage := usage }
  | .error reason em usage =>
      .ok { p with stopReason := reason, errorMessage := em, usage := usage }

/-- Fold `processProxyEvent` over a received event sequence. -/
def processProxyEvents (events : List ProxyAssistantMessageEvent) (p : ClientPartial) :
    Except String ClientPartial :=
  match events with
  | [] => .ok p
  | pe :: rest =>
      match processProxyEvent pe p with
      | .ok p2 => processProxyEvents rest p2
      | .error e => .error e

/-- Modelled from the spec: the proxy server (not part of the repository
snapshot) strips the `partial` field from the provider event stream (§4.I):
for content block `k`, a start event (`toolcall_start` additionally carrying
id and toolName), the delta fragments, and an end event carrying only the
block's signature. -/
def blockProxyEvents (k : Nat) (b : AssistantBlock) (chunks : List String) :
    List ProxyAssistantMessageEvent :=
  match b with
  | .text _ sig =>
      .text_start k :: (chunks.map (ProxyAssistantMessageEvent.text_delta k) ++ [.text_end k sig])
  | .thinking _ sig =>
      .thinking_start k ::
        (chunks.map (ProxyAssistantMessageEvent.thinking_delta k) ++ [.thinking_end k sig])
  | .toolCall tc =>
      .toolcall_start k tc.id tc.name ::
        (chunks.map (ProxyAssistantMessageEvent.toolcall_delta k) ++ [.toolcall_end k])

def serverBlocks : Nat → List AssistantBlock → List (List String) →
    List ProxyAssistantMessageEvent
  | _, [], _ => []
  | _, _ :: _, [] => []
  | k, b :: bs, ch :: chs => blockProxyEvents k b ch ++ serverBlocks (k + 1) bs chs

/-- Modelled from the spec: the stripped `done` / `error` event closing the
stream, carrying only usage (plus errorMessage on errors). -/
def finalProxyEvent (m : AssistantMessage) : ProxyAssistantMessageEvent :=
  match m.stopReason with
  | .stop => .done .stop m.usage
  | .length => .done .length m.usage
  | .toolUse => .done .toolUse m.usage
  | .aborted => .error .aborted m.errorMessage m.usage
  | .error => .error .error m.errorMessage m.usage

/-- The full stripped wire stream for a finished assistant message, one delta
chunking per content block. -/
def serverProxyEvents (m : AssistantMessage) (chunks : List (List String)) :
    List ProxyAssistantMessageEvent :=
  .start :: (serverBlocks 0 m.content chunks ++ [finalProxyEvent m])

/-- Conformance of a chunking to the final message (§4.D): per block the delta
fragments concatenate to the block's text, and for tool calls the streaming
parse of the concatenated fragments yields the block's arguments (an empty
fragment list corresponds to empty `{}` arguments). -/
def conformantChunks : List AssistantBlock → List (List String) → Prop
  | [], [] => True
  | .text t _ :: bs, ch :: chs => String.join ch = t ∧ conformantChunks bs chs
  | .thinking t _ :: bs, ch :: chs => String.join ch = t ∧ conformantChunks bs chs
  | .toolCall tc :: bs, ch :: chs =>
      (if ch.isEmpty then tc.arguments = Json.obj []
       else adjustedParse (String.join ch) = tc.arguments) ∧ conformantChunks bs chs
  | _, _ => False

/-- The client block finally rebuilt for one finished content block: the tool
call's `thoughtSignature` is never transmitted and is lost. -/
def clientFinal : AssistantBlock → ClientBlock
  | .text t sig => .text t sig
  | .thinking t sig => .thinking t sig
  | .toolCall tc => .toolCall ⟨tc.id, tc.name, tc.arguments, none⟩ none

/-- The codec's loss: `thoughtSignature` stripped from tool calls. -/
def dropThoughtSignature : AssistantBlock → AssistantBlock
  | .toolCall tc => .toolCall { tc with thoughtSignature := none }
  | b => b

end Pi

namespace Pi

theorem processProxyEvents_append (xs ys : List ProxyAssistantMessageEvent) :
    ∀ (p : ClientPartial),
      processProxyEvents (xs ++ ys) p =
        match processProxyEvents xs p with
        | .ok p2 => processProxyEvents ys p2
        | .error e => .error e := by
  induction xs with
  | nil => intro p; rfl
  | cons x xs ih =>
      intro p
      simp only [List.cons_append, processProxyEvents]
      cases processProxyEvent x p with
      | ok p2 => exact ih p2
      | error e => rfl

theorem processProxyEvents_append_ok (xs ys : List ProxyAssistantMessageEvent)
    (p p2 : ClientPartial) (h : processProxyEvents xs p = .ok p2) :
    processProxyEvents (xs ++ ys) p = processProxyEvents ys p2 := by
  rw [processProxyEvents_append, h]

theorem setIdx_concat {α : Type} : ∀ (l : List α) (b : α), setIdx l l.length b = l ++ [b] := by
  intro l
  induction l with
  | nil => intro b; rfl
  | cons x xs ih => intro b; simp [setIdx, ih]

theorem setIdx_concat_set {α : Type} :
    ∀ (l : List α) (b b2 : α), setIdx (l ++ [b]) l.length b2 = l ++ [b2] := by
  intro l
  induction l with
  | nil => intro b b2; rfl
  | cons x xs ih => intro b b2; simp [setIdx, ih]

theorem get?_concat {α : Type} (l : List α) (b : α) : (l ++ [b]).get? l.length = some b := by
  induction l with
  | nil => rfl
  | cons x xs ih => exact ih

theorem strFoldlAppend (l : List String) :
    ∀ (x y : String), l.foldl (fun r s => r ++ s) (x ++ y) = x ++ l.foldl (fun r s => r ++ s) y := by
  induction l with
  | nil => intro x y; rfl
  | cons a l ih =>
      intro x y
      simp only [List.foldl]
      rw [String.append_assoc, ih]

theorem strJoin_cons (a : String) (l : List String) :
    String.join (a :: l) = a ++ String.join l := by
  simp only [String.join, List.foldl]
  have h := strFoldlAppend l a ""
  rw [show ("" ++ a : String) = a ++ "" by simp, h]

theorem strJoin_nil : String.join [] = "" := rfl

theorem textDeltas_ok (k : Nat) (ds : List String) :
    ∀ (l : List ClientBlock) (acc : String) (sig : Option String) (p : ClientPartial),
      p.content = l ++ [.text acc sig] → l.length = k →
      processProxyEvents (ds.map (ProxyAssistantMessageEvent.text_delta k)) p =
        .ok { p with content := l ++ [.text (acc ++ String.join ds) sig] } := by
  induction ds with
  | nil =>
      intro l acc sig p hp hl
      simp only [List.map_nil, processProxyEvents, strJoin_nil]
      rw [show acc ++ "" = acc by simp, ← hp]
  | cons d ds ih =>
      intro l acc sig p hp hl
      have hget : (l ++ [ClientBlock.text acc sig]).get? k = some (.text acc sig) := by
        rw [← hl]; exact get?_concat l _
      have hset : setIdx (l ++ [ClientBlock.text acc sig]) k (.text (acc ++ d) sig) =
          l ++ [ClientBlock.text (acc ++ d) sig] := by
        rw [← hl]; exact setIdx_concat_set l _ _
      simp only [List.map_cons, processProxyEvents, processProxyEvent, hp, hget, hset]
      rw [ih l (acc ++ d) sig { p with content := l ++ [ClientBlock.text (acc ++ d) sig] } rfl hl]
      rw [strJoin_cons, ← String.append_assoc]

theorem thinkingDeltas_ok (k : Nat) (ds : List String) :
    ∀ (l : List ClientBlock) (acc : String) (sig : Option String) (p : ClientPartial),
      p.content = l ++ [.thinking acc sig] → l.length = k →
      processProxyEvents (ds.map (ProxyAssistantMessageEvent.thinking_delta k)) p =
        .ok { p with content := l ++ [.thinking (acc ++ String.join ds) sig] } := by
  induction ds with
  | nil =>
      intro l acc sig p hp hl
      simp only [List.map_nil, processProxyEvents, strJoin_nil]
      rw [show acc ++ "" = acc by simp, ← hp]
  | cons d ds ih =>
      intro l acc sig p hp hl
      have hget : (l ++ [ClientBlock.thinking acc sig]).get? k = some (.thinking acc sig) := by
        rw [← hl]; exact get?_concat l _
      have hset : setIdx (l ++ [ClientBlock.thinking acc sig]) k (.thinking (acc ++ d) sig) =
          l ++ [ClientBlock.thinking (acc ++ d) sig] := by
        rw [← hl]; exact setIdx_concat_set l _ _
      simp only [List.map_cons, processProxyEvents, processProxyEvent, hp, hget, hset]
      rw [ih l (acc ++ d) sig
        { p with content := l ++ [ClientBlock.thinking (acc ++ d) sig] } rfl hl]
      rw [strJoin_cons, ← String.append_assoc]

theorem toolDeltas_ok (k : Nat) (ds : List String) (hds : ds ≠ []) :
    ∀ (l : List ClientBlock) (acc : String) (tc0 : ToolCall) (p : ClientPartial),
      p.content = l ++ [.toolCall tc0 (some acc)] → l.length = k →
      processProxyEvents (ds.map (ProxyAssistantMessageEvent.toolcall_delta k)) p =
        .ok { p with content := l ++
          [.toolCall { tc0 with arguments := adjustedParse (acc ++ String.join ds) }
            (some (acc ++ String.join ds))] } := by
  induction ds with
  | nil => exact absurd rfl hds
  | cons d ds ih =>
      intro l acc tc0 p hp hl
      have hget : (l ++ [ClientBlock.toolCall tc0 (some acc)]).get? k =
          some (.toolCall tc0 (some acc)) := by
        rw [← hl]; exact get?_concat l _
      have hset : setIdx (l ++ [ClientBlock.toolCall tc0 (some acc)]) k
            (.toolCall { tc0 with arguments := adjustedParse (acc ++ d) } (some (acc ++ d))) =
          l ++ [ClientBlock.toolCall { tc0 with arguments := adjustedParse (acc ++ d) }
            (some (acc ++ d))] := by
        rw [← hl]; exact setIdx_concat_set l _ _
      simp only [List.map_cons, processProxyEvents, processProxyEvent, hp, hget, hset]
      cases hds2 : ds with
      | nil =>
          simp only [List.map_nil, processProxyEvents, strJoin_cons, strJoin_nil]
          rw [show (d ++ "" : String) = d by simp]
      | cons d2 ds2 =>
          rw [← hds2]
          rw [ih (by simp [hds2]) l (acc ++ d)
            { tc0 with arguments := adjustedParse (acc ++ d) }
            { p with content := l ++
              [ClientBlock.toolCall { tc0 with arguments := adjustedParse (acc ++ d) }
                (some (acc ++ d))] }
            rfl hl]
          rw [strJoin_cons, ← String.append_assoc]

end Pi

namespace Pi

/-- Per-block conformance condition (the toolCall case mirrors §4.D's
"re-parses the accumulated fragments with the streaming JSON parser"). -/
def blockConf : AssistantBlock → List String → Prop
  | .text t _, ch => String.join ch = t
  | .thinking t _, ch => String.join ch = t
  | .toolCall tc, ch =>
      if ch.isEmpty then tc.arguments = Json.obj []
      else adjustedParse (String.join ch) = tc.arguments

theorem processBlock_ok (b : AssistantBlock) (ch : List String) (p : ClientPartial) (k : Nat)
    (hk : p.content.length = k) (hconf : blockConf b ch) :
    processProxyEvents (blockProxyEvents k b ch) p =
      .ok { p with content := p.content ++ [clientFinal b] } := by
  cases b with
  | text t sig =>
      have hstart : setIdx p.content k (ClientBlock.text "" none) =
          p.content ++ [ClientBlock.text "" none] := by
        rw [← hk]; exact setIdx_concat _ _
      simp only [blockProxyEvents, processProxyEvents, processProxyEvent, hstart]
      rw [processProxyEvents_append]
      rw [textDeltas_ok k ch p.content "" none _ rfl hk]
      have hget : (p.content ++ [ClientBlock.text ("" ++ String.join ch) none]).get? k =
          some (.text ("" ++ String.join ch) none) := by
        rw [← hk]; exact get?_concat _ _
      have hset : setIdx (p.content ++ [ClientBlock.text ("" ++ String.join ch) none]) k
            (.text ("" ++ String.join ch) sig) =
          p.content ++ [ClientBlock.text ("" ++ String.join ch) sig] := by
        rw [← hk]; exact setIdx_concat_set _ _ _
      simp only [processProxyEvents, processProxyEvent, hget, hset]
      simp only [blockConf] at hconf
      rw [show ("" ++ String.join ch : String) = String.join ch by simp, hconf]
      rfl
  | thinking t sig =>
      have hstart : setIdx p.content k (ClientBlock.thinking "" none) =
          p.content ++ [ClientBlock.thinking "" none] := by
        rw [← hk]; exact setIdx_concat _ _
      simp only [blockProxyEvents, processProxyEvents, processProxyEvent, hstart]
      rw [processProxyEvents_append]
      rw [thinkingDeltas_ok k ch p.content "" none _ rfl hk]
      have hget : (p.content ++ [ClientBlock.thinking ("" ++ String.join ch) none]).get? k =
          some (.thinking ("" ++ String.join ch) none) := by
        rw [← hk]; exact get?_concat _ _
      have hset : setIdx (p.content ++ [ClientBlock.thinking ("" ++ String.join ch) none]) k
            (.thinking ("" ++ String.join ch) sig) =
          p.content ++ [ClientBlock.thinking ("" ++ String.join ch) sig] := by
        rw [← hk]; exact setIdx_concat_set _ _ _
      simp only [processProxyEvents, processProxyEvent, hget, hset]
      simp only [blockConf] at hconf
      rw [show ("" ++ String.join ch : String) = String.join ch by simp, hconf]
      rfl
  | toolCall tc =>
      have hstart : setIdx p.content k
            (ClientBlock.toolCall ⟨tc.id, tc.name, Json.obj [], none⟩ (some "")) =
          p.content ++ [ClientBlock.toolCall ⟨tc.id, tc.name, Json.obj [], none⟩ (some "")] := by
        rw [← hk]; exact setIdx_concat _ _
      simp only [blockProxyEvents, processProxyEvents, processProxyEvent, hstart]
      rw [processProxyEvents_append]
      simp only [blockConf] at hconf
      cases hch : ch with
      | nil =>
          rw [hch] at hconf
          simp only [List.isEmpty_nil, if_true] at hconf
          have hget : (p.content ++
              [ClientBlock.toolCall ⟨tc.id, tc.name, Json.obj [], none⟩ (some "")]).get? k =
              some (.toolCall ⟨tc.id, tc.name, Json.obj [], none⟩ (some "")) := by
            rw [← hk]; exact get?_concat _ _
          have hset : setIdx (p.content ++
                [ClientBlock.toolCall ⟨tc.id, tc.name, Json.obj [], none⟩ (some "")]) k
                (.toolCall ⟨tc.id, tc.name, Json.obj [], none⟩ none) =
              p.content ++ [ClientBlock.toolCall ⟨tc.id, tc.name, Json.obj [], none⟩ none] := by
            rw [← hk]; exact setIdx_concat_set _ _ _
          simp only [List.map_nil, processProxyEvents, processProxyEvent, hget, hset]
          simp [clientFinal, ← hconf]
      | cons c cs =>
          rw [← hch]
          rw [toolDeltas_ok k ch (by rw [hch]; simp) p.content ""
            ⟨tc.id, tc.name, Json.obj [], none⟩
            { p with content := p.content ++
              [ClientBlock.toolCall ⟨tc.id, tc.name, Json.obj [], none⟩ (some "")] } rfl hk]
          have hargs : ("" ++ String.join ch : String) = String.join ch := by simp
          have hget : (p.content ++
              [ClientBlock.toolCall ⟨tc.id, tc.name,
                adjustedParse ("" ++ String.join ch), none⟩ (some ("" ++ String.join ch))]).get? k =
              some (.toolCall ⟨tc.id, tc.name,
                adjustedParse ("" ++ String.join ch), none⟩ (some ("" ++ String.join ch))) := by
            rw [← hk]; exact get?_concat _ _
          have hset : setIdx (p.content ++
                [ClientBlock.toolCall ⟨tc.id, tc.name,
                  adjustedParse ("" ++ String.join ch), none⟩ (some ("" ++ String.join ch))]) k
                (.toolCall ⟨tc.id, tc.name, adjustedParse ("" ++ String.join ch), none⟩ none) =
              p.content ++ [ClientBlock.toolCall ⟨tc.id, tc.name,
                adjustedParse ("" ++ String.join ch), none⟩ none] := by
            rw [← hk]; exact setIdx_concat_set _ _ _
          simp only [processProxyEvents, processProxyEvent, hget, hset]
          have hfin : adjustedParse ("" ++ String.join ch) = tc.arguments := by
            rw [hch] at hconf
            rw [hargs, hch]
            simpa using hconf
          simp only [hfin, clientFinal]

/-- Processing the stripped streams of a block sequence appends the rebuilt
client blocks in order. -/
theorem serverBlocks_ok :
    ∀ (bs : List AssistantBlock) (chs : List (List String)) (p : ClientPartial) (k : Nat),
      p.content.length = k → conformantChunks bs chs →
      processProxyEvents (serverBlocks k bs chs) p =
        .ok { p with content := p.content ++ bs.map clientFinal } := by
  intro bs
  induction bs with
  | nil =>
      intro chs p k hk hconf
      cases chs with
      | nil => simp only [serverBlocks, processProxyEvents, List.map_nil, List.append_nil]
      | cons ch chs => simp [conformantChunks] at hconf
  | cons b bs ih =>
      intro chs p k hk hconf
      cases chs with
      | nil =>
          exfalso
          cases b <;> simp [conformantChunks] at hconf
      | cons ch chs =>
          have hbc : blockConf b ch ∧ conformantChunks bs chs := by
            cases b <;> simpa [conformantChunks, blockConf] using hconf
          simp only [serverBlocks]
          rw [processProxyEvents_append_ok _ _ _ _ (processBlock_ok b ch p k hk hbc.1)]
          rw [ih chs { p with content := p.content ++ [clientFinal b] } (k + 1)
            (by simp [hk]) hbc.2]
          simp

/-- C9 counterexample: a tool call carrying a `thoughtSignature` is not
reproduced byte-for-byte: the proxy events never transmit the signature, so
the rebuilt content differs from the original. -/
def c9tc : ToolCall := ⟨"t", "n", .obj [], some "sig"⟩

def c9m : AssistantMessage :=
  ⟨[.toolCall c9tc], .stop, "p", "a", "mo", Usage.zero, none, 0⟩

theorem proxy_codec_roundtrip_cex :
    (processProxyEvents (serverProxyEvents c9m [[]])
        (initClientPartial "p" "a" "mo" 5)).map (fun p => p.content.map ClientBlock.toBlock) =
      .ok [.toolCall ⟨"t", "n", .obj [], none⟩] ∧
    ([.toolCall (⟨"t", "n", .obj [], none⟩ : ToolCall)] : List AssistantBlock) ≠ c9m.content := by
  constructor
  · rfl
  · decide

/-- C9 (amended): proxy codec round-trip.  For every finished assistant
message and conformant delta chunking, stripping server-side and rebuilding
client-side via `processProxyEvent` reproduces the original message's content
blocks — texts and thinking blocks with their signatures, tool calls with
parsed arguments — together with its stopReason and usage, except that a tool
call's `thoughtSignature` is not transmitted and is lost. -/
theorem proxy_codec_roundtrip (m : AssistantMessage) (chunks : List (List String)) (now : Nat)
    (hconf : conformantChunks m.content chunks) :
    ∃ p, processProxyEvents (serverProxyEvents m chunks)
        (initClientPartial m.provider m.api m.model now) = .ok p ∧
      p.content.map ClientBlock.toBlock = m.content.map dropThoughtSignature ∧
      p.stopReason = m.stopReason ∧
      p.usage = m.usage := by
  simp only [serverProxyEvents, processProxyEvents, processProxyEvent]
  rw [processProxyEvents_append_ok _ _ _ _
    (serverBlocks_ok m.content chunks (initClientPartial m.provider m.api m.model now) 0
      rfl hconf)]
  have htb : ∀ b : AssistantBlock, (clientFinal b).toBlock = dropThoughtSignature b := by
    intro b
    cases b with
    | text t s => rfl
    | thinking t s => rfl
    | toolCall tc => rfl
  cases hsr : m.stopReason with
  | stop =>
      refine ⟨⟨List.map clientFinal m.content, .stop, m.provider, m.api, m.model,
        m.usage, none, now⟩, ?_, ?_, ?_, ?_⟩
      · simp [processProxyEvents, processProxyEvent, finalProxyEvent, hsr, initClientPartial]
      · simp [List.map_map, Function.comp, htb]
      · rfl
      · rfl
  | length =>
      refine ⟨⟨List.map clientFinal m.content, .length, m.provider, m.api, m.model,
        m.usage, none, now⟩, ?_, ?_, ?_, ?_⟩
      · simp [processProxyEvents, processProxyEvent, finalProxyEvent, hsr, initClientPartial]
      · simp [List.map_map, Function.comp, htb]
      · rfl
      · rfl
  | toolUse =>
      refine ⟨⟨List.map clientFinal m.content, .toolUse, m.provider, m.api, m.model,
        m.usage, none, now⟩, ?_, ?_, ?_, ?_⟩
      · simp [processProxyEvents, processProxyEvent, finalProxyEvent, hsr, initClientPartial]
      · simp [List.map_map, Function.comp, htb]
      · rfl
      · rfl
  | aborted =>
      refine ⟨⟨List.map clientFinal m.content, .aborted, m.provider, m.api, m.model,
        m.usage, m.errorMessage, now⟩, ?_, ?_, ?_, ?_⟩
      · simp [processProxyEvents, processProxyEvent, finalProxyEvent, hsr, initClientPartial]
      · simp [List.map_map, Function.comp, htb]
      · rfl
      · rfl
  | error =>
      refine ⟨⟨List.map clientFinal m.content, .error, m.provider, m.api, m.model,
        m.usage, m.errorMessage, now⟩, ?_, ?_, ?_, ?_⟩
      · simp [processProxyEvents, processProxyEvent, finalProxyEvent, hsr, initClientPartial]
      · simp [List.map_map, Function.comp, htb]
      · rfl
      · rfl

def c9wm : AssistantMessage :=
  ⟨[.thinking "th" (some "ts"), .text "hello" (some "xs"),
    .toolCall ⟨"t", "n", .obj [("a", .num 1)], none⟩], .toolUse,
    "p", "a", "mo", Usage.zero, none, 0⟩

def c9wchunks : List (List String) := [["t", "h"], ["hel", "lo"], ["\x7b\"a\":", "1\x7d"]]

theorem proxy_codec_roundtrip_witness :
    ∃ p, processProxyEvents (serverProxyEvents c9wm c9wchunks)
        (initClientPartial c9wm.provider c9wm.api c9wm.model 5) = .ok p ∧
      p.content.map ClientBlock.toBlock = c9wm.content.map dropThoughtSignature ∧
      p.stopReason = c9wm.stopReason ∧
      p.usage = c9wm.usage :=
  proxy_codec_roundtrip c9wm c9wchunks 5
    (by
      refine ⟨rfl, rfl, ?_, trivial⟩
      rfl)

end Pi
